import Mathlib

/-!
The class `ringandkey::rpn`: infix to Reverse Polish Notation conversion and evaluation

A shallow embedding of `include/ringandkey/rpn.h` and a verification of its
specification.

Modelling conventions.

* `std::string` is a `List Char`; a token of the buffer is such a string.
* A `std::vector` used as a stack (`back`, `pop_back`, `push_back`) is a `List`
  whose head is `back()`: the list order is the pop order.  The member
  `buffer`, which is only appended to and iterated, is a `List` in index order.
* `int` is a 32-bit two's complement integer, embedded in `Int`.  Signed
  overflow, `INT_MIN / -1`, `INT_MIN % -1`, and `back()`/`pop_back()` on an empty
  vector are undefined behaviour in C++; the embedding makes them the explicit
  outcome `Failure.undefined`.  A thrown `std::range_error` is the outcome
  `Failure.range_error` carrying the message.
* `std::stoi` and `std::isdigit` belong to the C++ standard library, not to the
  repository; they are modelled from the standard ("C" locale, base 10).
* The length of an input string is assumed to fit in `int` (`num = src.size()`).
-/

namespace ringandkey

/-- Outcomes of a call other than a normal return. -/
inductive Failure where
  /-- A `std::range_error` was thrown; `what` is its message. -/
  | range_error (what : String)
  /-- The execution ran into undefined behaviour. -/
  | undefined
  deriving DecidableEq, Repr

deriving instance DecidableEq for Except

/-- Largest value of `int`. -/
def INT_MAX : Int := 2147483647

/-- Smallest value of `int`. -/
def INT_MIN : Int := -2147483648

/-- Result of a signed `int` operation whose mathematical value is `v`:
the value when it is representable, undefined behaviour otherwise. -/
def int_result (v : Int) : Except Failure Int :=
  if INT_MIN ≤ v ∧ v ≤ INT_MAX then .ok v else .error .undefined

/-! ## Standard library: `std::isdigit`, `std::isspace`, `std::stoi` -/

/-- The test `std::isdigit` in the "C" locale: one of `0` .. `9`. -/
def isdigit (c : Char) : Bool := c.isDigit

/-- The test `std::isspace` in the "C" locale, used by `std::stoi` to skip leading blanks. -/
def isspace (c : Char) : Bool :=
  c == ' ' || c == '\t' || c == '\n' || c == '\x0b' || c == '\x0c' || c == '\r'

/-- Value of a decimal digit character. -/
def digit_value (c : Char) : Nat := c.toNat - 48

/-- Value of a string of decimal digits, most significant first. -/
def decimal_value (ds : List Char) : Nat :=
  ds.foldl (fun acc c => 10 * acc + digit_value c) 0

/-- The call `std::stoi(token)` (base 10): skip leading white space, read an optional sign and
the longest run of digits, ignore what follows.  `none` stands for a thrown exception:
`std::invalid_argument` when there is no digit to convert, `std::out_of_range` when the value
is not representable in `int`. -/
def stoi (token : List Char) : Option Int :=
  let s := token.dropWhile isspace
  let negative := s.head? == some '-'
  let body := if s.head? == some '-' || s.head? == some '+' then s.tail else s
  let ds := body.takeWhile isdigit
  if ds.isEmpty then none
  else
    let v : Int := if negative then -(decimal_value ds : Int) else (decimal_value ds : Int)
    if INT_MIN ≤ v ∧ v ≤ INT_MAX then some v else none

/-! ## The private helpers of `class rpn` -/

/-- Source `rpn::priority`: prioritize operators. -/
def priority (token : Char) : Int :=
  if token == '*' || token == '/' || token == '%' then 100
  else if token == '+' || token == '-' then 10
  else 1

/-- Source `rpn::is_ignore`: whether the character is to be ignored. -/
def is_ignore (token : Char) : Bool :=
  token == ' ' || token == '\t' || token == '\n' || token == '\r'

/-- Source `rpn::is_operator`: whether the token is one of the five operator strings. -/
def is_operator (token : List Char) : Bool :=
  token == ['+'] || token == ['-'] || token == ['*'] || token == ['/'] || token == ['%']

/-- Source `rpn::is_numeric`: whether `std::stoi` converts the token without throwing. -/
def is_numeric (token : List Char) : Bool :=
  (stoi token).isSome

/-- Source `rpn::pop_as`: read `back()` and `pop_back()`; undefined on an empty vector. -/
def pop_as {T : Type} : List T → Except Failure (T × List T)
  | [] => .error .undefined
  | v :: src => .ok (v, src)

/-- First character `s[0]` of a string; for the empty string this is the terminating NUL. -/
def front (s : List Char) : Char := s.headD (Char.ofNat 0)

/-! ## `rpn::parse` -/

/-- Local state of `rpn::parse` together with the member `buffer`. -/
structure ParseState where
  /-- The member `buffer` (index order). -/
  buffer : List (List Char)
  /-- The local operator stack (head is `back()`). -/
  stack : List (List Char)
  /-- The local string `digit`. -/
  digit : List Char
  deriving DecidableEq, Repr

/-- Lines 98-101 and 143: a non-empty `digit` is appended to the buffer. -/
def flush_digit (buffer : List (List Char)) (digit : List Char) : List (List Char) :=
  if !digit.isEmpty then buffer ++ [digit] else buffer

/-- Lines 108-115, the branch for `)`: move the stack to the buffer until `back()` is `"("`,
then throw that `"("` away.  Reading `back()` of an empty stack is undefined. -/
def close_group : List (List Char) → List (List Char) →
    Except Failure (List (List Char) × List (List Char))
  | _, [] => .error .undefined
  | buffer, top :: stack =>
    if top != ['('] then close_group (buffer ++ [top]) stack
    else .ok (buffer, stack)

/-- Lines 123-138, the branch for every other character: while the stack is not empty and
`priority(token) <= priority(stack.back()[0])`, move the top of the stack to the buffer;
then push the token as a one-character string. -/
def push_operator (token : Char) : List (List Char) → List (List Char) →
    List (List Char) × List (List Char)
  | buffer, [] => (buffer, [[token]])
  | buffer, top :: stack =>
    if priority token ≤ priority (front top) then push_operator token (buffer ++ [top]) stack
    else (buffer, [token] :: top :: stack)

/-- One iteration of the loop of `rpn::parse` (lines 87-139) on the character `token`. -/
def parse_step (st : ParseState) (token : Char) : Except Failure ParseState :=
  if is_ignore token then .ok st
  else if isdigit token then .ok { st with digit := st.digit ++ [token] }
  else
    let buffer := flush_digit st.buffer st.digit
    if token == ')' then
      match close_group buffer st.stack with
      | .ok (buffer', stack') => .ok { buffer := buffer', stack := stack', digit := [] }
      | .error f => .error f
    else if token == '(' then
      .ok { buffer := buffer, stack := [token] :: st.stack, digit := [] }
    else
      let r := push_operator token buffer st.stack
      .ok { buffer := r.1, stack := r.2, digit := [] }

/-- The loop of `rpn::parse` over the characters of `src`, in order. -/
def parse_loop : List Char → ParseState → Except Failure ParseState
  | [], st => .ok st
  | token :: src, st =>
    match parse_step st token with
    | .ok st' => parse_loop src st'
    | .error f => .error f

/-- Lines 142-148: append the pending digits, then the whole stack in pop order. -/
def parse_finish (st : ParseState) : List (List Char) :=
  flush_digit st.buffer st.digit ++ st.stack

/-- The class `rpn`: its only data member is `buffer`. -/
structure rpn where
  /-- The tokens in reverse Polish order. -/
  buffer : List (List Char)
  deriving DecidableEq, Repr

/-- Source `rpn::parse`: convert `src` and append the result to the buffer of the object. -/
def rpn.parse (self : rpn) (src : List Char) : Except Failure rpn :=
  match parse_loop src { buffer := self.buffer, stack := [], digit := [] } with
  | .ok st => .ok { buffer := parse_finish st }
  | .error f => .error f

/-- The default constructor `rpn()`. -/
def rpn.empty : rpn := { buffer := [] }

/-- The constructor `rpn(const std::string& src)`. -/
def rpn.of_string (src : List Char) : Except Failure rpn :=
  rpn.empty.parse src

/-! ## `rpn::eval` and `rpn::calc` -/

/-- Lines 159-176: apply the operator `v` to `b` (left) and `a` (right). -/
def apply_operator (v : List Char) (b a : Int) (stack : List Int) :
    Except Failure (List Int) :=
  if v == ['+'] then (int_result (b + a)).map (· :: stack)
  else if v == ['-'] then (int_result (b - a)).map (· :: stack)
  else if v == ['*'] then (int_result (b * a)).map (· :: stack)
  else if v == ['/'] then
    if a == 0 then .error (.range_error "ERROR: division by zero.")
    else (int_result (Int.tdiv b a)).map (· :: stack)
  else if v == ['%'] then
    if a == 0 then .error (.range_error "ERROR: calculated the remainder with zero")
    else if b == INT_MIN && a == -1 then .error .undefined
    else (int_result (Int.tmod b a)).map (· :: stack)
  else .ok stack

/-- One iteration of the loop of `rpn::eval` (lines 155-177) on the token `v`. -/
def eval_step (stack : List Int) (v : List Char) : Except Failure (List Int) :=
  if is_numeric v then
    match stoi v with
    | some n => .ok (n :: stack)
    | none => .ok stack
  else if is_operator v then
    match pop_as stack with
    | .error f => .error f
    | .ok (a, stack1) =>
      match pop_as stack1 with
      | .error f => .error f
      | .ok (b, stack2) => apply_operator v b a stack2
  else .ok stack

/-- The loop of `rpn::eval` over the tokens of the buffer, in order. -/
def eval_loop : List (List Char) → List Int → Except Failure (List Int)
  | [], stack => .ok stack
  | v :: buffer, stack =>
    match eval_step stack v with
    | .ok stack' => eval_loop buffer stack'
    | .error f => .error f

/-- Source `rpn::eval`: run the loop on an empty value stack and return `stack.back()`. -/
def rpn.eval (self : rpn) : Except Failure Int :=
  match eval_loop self.buffer [] with
  | .ok (top :: _) => .ok top
  | .ok [] => .error .undefined
  | .error f => .error f

/-- Source `rpn::calc`: construct the object from `src`, then evaluate it. -/
def rpn.calc (src : List Char) : Except Failure Int :=
  match rpn.of_string src with
  | .ok r => r.eval
  | .error f => .error f

/-! ## The infix grammar and its standard evaluation -/

/-- Syntax trees of infix expressions: a literal with its digit string, a parenthesised
expression, and a binary operation with its operator character. -/
inductive Expr where
  | lit (ds : List Char)
  | paren (e : Expr)
  | bin (op : Char) (l r : Expr)
  deriving DecidableEq, Repr

/-- The operators `+` and `-`. -/
def is_additive (op : Char) : Bool := op == '+' || op == '-'

/-- The operators `*`, `/` and `%`. -/
def is_multiplicative (op : Char) : Bool := op == '*' || op == '/' || op == '%'

/-- Grammar level of a tree: 0 for an `expr` that is a sum or difference, 1 for a `term` that is
a product, quotient or remainder, 2 for a `factor`. -/
def Expr.level : Expr → Nat
  | .lit _ => 2
  | .paren _ => 2
  | .bin op _ _ => if is_multiplicative op then 1 else 0

/-- The tree is a parse tree of the grammar
`expr := term (('+'|'-') term)*`, `term := factor (('*'|'/'|'%') factor)*`,
`factor := literal | '(' expr ')'`, chains being grouped to the left: the right operand of
`+ -` is a `term`, the left operand of `* / %` is a `term` and its right operand a `factor`;
a literal is a non-empty string of digits. -/
def Expr.wf : Expr → Bool
  | .lit ds => !ds.isEmpty && ds.all isdigit
  | .paren e => e.wf
  | .bin op l r =>
    l.wf && r.wf &&
      ((is_additive op && decide (1 ≤ r.level)) ||
       (is_multiplicative op && decide (1 ≤ l.level) && decide (2 ≤ r.level)))

/-- The text of an expression, without white space. -/
def Expr.text : Expr → List Char
  | .lit ds => ds
  | .paren e => '(' :: (e.text ++ [')'])
  | .bin op l r => l.text ++ op :: r.text

/-- Post-order traversal: the tokens of the left operand, those of the right operand, then the
operator as a one-character string; a literal is its digit string. -/
def Expr.postorder : Expr → List (List Char)
  | .lit ds => [ds]
  | .paren e => e.postorder
  | .bin op l r => l.postorder ++ r.postorder ++ [[op]]

/-- A value that fits in a 32-bit signed `int`. -/
def fits (v : Int) : Option Int :=
  if INT_MIN ≤ v ∧ v ≤ INT_MAX then some v else none

/-- Standard meaning of a binary operator on integers whose result must fit in `int`;
division truncates toward zero and a zero divisor has no value. -/
def infix_op (op : Char) (x y : Int) : Option Int :=
  if op == '+' then fits (x + y)
  else if op == '-' then fits (x - y)
  else if op == '*' then fits (x * y)
  else if op == '/' then (if y = 0 then none else fits (Int.tdiv x y))
  else if op == '%' then (if y = 0 then none else fits (Int.tmod x y))
  else none

/-- Standard infix evaluation of a tree; `none` when a literal or an intermediate value does not
fit in a 32-bit signed `int` or a divisor is zero. -/
def Expr.value : Expr → Option Int
  | .lit ds => fits (decimal_value ds)
  | .paren e => e.value
  | .bin op l r =>
    match l.value, r.value with
    | some x, some y => infix_op op x y
    | _, _ => none

/-- No remainder of `INT_MIN` by `-1` is taken anywhere in the tree. -/
def Expr.rem_defined : Expr → Bool
  | .lit _ => true
  | .paren e => e.rem_defined
  | .bin op l r =>
    l.rem_defined && r.rem_defined &&
      !(op == '%' && l.value == some INT_MIN && r.value == some (-1))

/-- The decimal numeral of a natural number, as produced by `std::to_string`. -/
def decimal (n : Nat) : List Char := Nat.toDigits 10 n

/-! ## Auxiliary definitions for the proofs -/

/-- Tokens that stay on the operator stack once the text of a tree has been scanned. -/
def Expr.pending : Expr → List (List Char)
  | .lit _ => []
  | .paren _ => []
  | .bin op _ r => r.pending ++ [[op]]

/-- Digits that are still in `digit` once the text of a tree has been scanned. -/
def Expr.trailing : Expr → List Char
  | .lit ds => ds
  | .paren _ => []
  | .bin _ _ r => r.trailing

/-- Tokens already in the buffer once the text of a tree has been scanned. -/
def Expr.emitted : Expr → List (List Char)
  | .lit _ => []
  | .paren e => e.postorder
  | .bin _ l r => l.postorder ++ r.emitted

/-- Least priority an operator on top of the stack must stay below while the tree is
scanned. -/
def Expr.guard : Expr → Int
  | .lit _ => 101
  | .paren _ => 101
  | .bin op _ _ => if is_multiplicative op then 100 else 10

/-- The top of the operator stack, if any, has a priority below `g`. -/
def below (g : Int) (stack : List (List Char)) : Prop :=
  ∀ top ∈ stack.head?, priority (front top) < g

/-- The string with every space, tab, newline and carriage-return character deleted. -/
def strip_whitespace (s : List Char) : List Char :=
  s.filter (fun c => !(c == ' ' || c == '\t' || c == '\n' || c == '\r'))

/-- The tree of `a-b-c` as the grammar reads it: `(a-b)-c`. -/
def sub_chain (a b c : Nat) : Expr :=
  .bin '-' (.bin '-' (.lit (decimal a)) (.lit (decimal b))) (.lit (decimal c))

/-- The tree of `a+b*c` as the grammar reads it: `a+(b*c)`. -/
def sum_of_product (a b c : Nat) : Expr :=
  .bin '+' (.lit (decimal a)) (.bin '*' (.lit (decimal b)) (.lit (decimal c)))

/-- The tree of `(a+b)*c`. -/
def product_of_sum (a b c : Nat) : Expr :=
  .bin '*' (.paren (.bin '+' (.lit (decimal a)) (.lit (decimal b)))) (.lit (decimal c))

/-- The valid alphabet: digits, white space, parentheses and the operators `+ - * / %`. -/
def in_alphabet (c : Char) : Bool :=
  isdigit c || is_ignore c || c == '(' || c == ')' || is_additive c || is_multiplicative c

/-- No token `")"` in the buffer or on the stack, and only digits in `digit`. -/
def no_close (st : ParseState) : Prop :=
  (∀ t ∈ st.buffer, t ≠ [')']) ∧ (∀ t ∈ st.stack, t ≠ [')']) ∧ st.digit.all isdigit = true

/-- No token `"("` in the buffer, and only digits in `digit`. -/
def no_open (st : ParseState) : Prop :=
  (∀ t ∈ st.buffer, t ≠ ['(']) ∧ st.digit.all isdigit = true

/-- The tokens of a buffer that the evaluator recognises: numeric ones and operators. -/
def recognised (buffer : List (List Char)) : List (List Char) :=
  buffer.filter (fun v => is_numeric v || is_operator v)

/-- State of a running call of `rpn::eval`: the object `*this` and the local value stack. -/
structure EvalState where
  /-- The object the method is called on. -/
  object : rpn
  /-- The local vector `stack` (head is `back()`). -/
  stack : List Int
  deriving DecidableEq, Repr

/-- The body of the range-based loop of `rpn::eval` at position `i` of the buffer of the
object: the token is copied (`auto v`) and only the local stack is written. -/
def eval_at (st : EvalState) (i : Nat) : Except Failure EvalState :=
  match st.object.buffer.get? i with
  | none => .ok st
  | some v =>
    match eval_step st.stack v with
    | .ok stack' => .ok { object := st.object, stack := stack' }
    | .error f => .error f

/-- The range-based loop of `rpn::eval` from position `i`, for `n` more iterations; the
object is returned with the outcome, also when an exception leaves the loop. -/
def eval_iterate : Nat → Nat → EvalState → Except Failure (List Int) × rpn
  | 0, _, st => (.ok st.stack, st.object)
  | n + 1, i, st =>
    match eval_at st i with
    | .ok st' => eval_iterate n (i + 1) st'
    | .error f => (.error f, st.object)

/-- The call `r.eval()` with the object made explicit: the outcome of the call and the object
after it. -/
def rpn.eval_call (self : rpn) : Except Failure Int × rpn :=
  match eval_iterate self.buffer.length 0 { object := self, stack := [] } with
  | (.ok (top :: _), object) => (.ok top, object)
  | (.ok [], object) => (.error .undefined, object)
  | (.error f, object) => (.error f, object)

/-- Every prefix of the input contains at least as many `(` as `)`. -/
def nesting_ok (s : List Char) : Prop :=
  ∀ n ≤ s.length, (s.take n).count ')' ≤ (s.take n).count '('

instance (s : List Char) : Decidable (nesting_ok s) :=
  inferInstanceAs (Decidable (∀ n ≤ s.length, (s.take n).count ')' ≤ (s.take n).count '('))

/-- The state with the tokens `front_tokens` put in front of its buffer. -/
def ParseState.behind (front_tokens : List (List Char)) (st : ParseState) : ParseState :=
  { buffer := front_tokens ++ st.buffer, stack := st.stack, digit := st.digit }

/-- A digit-string token: a non-empty string of digits. -/
def is_digit_string (t : List Char) : Bool := !t.isEmpty && t.all isdigit

/-- Maximal runs of digits of a string, in order of appearance; `run` is the run being
read. -/
def digit_runs_from : List Char → List Char → List (List Char)
  | run, [] => if run.isEmpty then [] else [run]
  | run, c :: s =>
    if isdigit c then digit_runs_from (run ++ [c]) s
    else (if run.isEmpty then [] else [run]) ++ digit_runs_from [] s

/-- The list of maximal digit runs of a string. -/
def digit_runs (s : List Char) : List (List Char) := digit_runs_from [] s

/-- An operator character: one of `+ - * / %`. -/
def is_operator_char (c : Char) : Bool := is_additive c || is_multiplicative c

/-- The tree of `(0-2147483647-1)%(0-1)`: the remainder of `INT_MIN` by `-1`. -/
def min_rem_expr : Expr :=
  .bin '%'
    (.paren (.bin '-' (.bin '-' (.lit ['0']) (.lit "2147483647".toList)) (.lit ['1'])))
    (.paren (.bin '-' (.lit ['0']) (.lit ['1'])))

/-- The tree of `(2+3)*4-10/5`. -/
def sample_expr : Expr :=
  .bin '-'
    (.bin '*' (.paren (.bin '+' (.lit ['2']) (.lit ['3']))) (.lit ['4']))
    (.bin '/' (.lit ['1', '0']) (.lit ['5']))

/-! ## Facts about the converter -/

theorem parse_loop_append (s t : List Char) (st st' : ParseState)
    (h : parse_loop s st = .ok st') : parse_loop (s ++ t) st = parse_loop t st' := by
  induction s generalizing st with
  | nil => simp [parse_loop] at h; subst h; rfl
  | cons c s ih =>
    simp only [List.cons_append, parse_loop] at h ⊢
    cases hstep : parse_step st c with
    | error f => simp [hstep] at h
    | ok st1 => simp only [hstep] at h ⊢; exact ih st1 h

theorem isdigit_not_ignore (c : Char) (h : isdigit c = true) : is_ignore c = false := by
  simp only [isdigit, Char.isDigit, Bool.and_eq_true, decide_eq_true_eq] at h
  have h48 : (48 : Nat) ≤ c.val.toNat := h.1
  simp only [is_ignore, Bool.or_eq_false_iff, beq_eq_false_iff_ne, ne_eq]
  refine ⟨⟨⟨?_, ?_⟩, ?_⟩, ?_⟩ <;> (rintro rfl; revert h48; decide)

theorem parse_loop_digits (ds : List Char) (hds : ds.all isdigit = true) (st : ParseState) :
    parse_loop ds st = .ok { st with digit := st.digit ++ ds } := by
  induction ds generalizing st with
  | nil => simp [parse_loop]
  | cons c ds ih =>
    simp only [List.all_cons, Bool.and_eq_true] at hds
    simp only [parse_loop, parse_step, isdigit_not_ignore c hds.1, hds.1, if_true,
      Bool.false_eq_true, if_false]
    rw [ih hds.2]
    simp

theorem flush_digit_eq (buffer : List (List Char)) (digit : List Char) :
    flush_digit buffer digit = buffer ++ flush_digit [] digit := by
  unfold flush_digit
  split <;> simp

theorem push_operator_pops (c : Char) (p stack buffer : List (List Char))
    (hp : ∀ t ∈ p, priority c ≤ priority (front t)) (hs : below (priority c) stack) :
    push_operator c buffer (p ++ stack) = (buffer ++ p, [c] :: stack) := by
  induction p generalizing buffer with
  | nil =>
    cases stack with
    | nil => simp [push_operator]
    | cons top stack =>
      have : priority (front top) < priority c := hs top (by simp)
      simp [push_operator, not_le.mpr this]
  | cons t p ih =>
    have h1 : priority c ≤ priority (front t) := hp t (by simp)
    rw [List.cons_append, push_operator, if_pos h1, ih _ (fun t ht => hp t (by simp [ht]))]
    simp

theorem close_group_pops (p stack buffer : List (List Char))
    (hp : ∀ t ∈ p, t ≠ ['(']) :
    close_group buffer (p ++ ['('] :: stack) = .ok (buffer ++ p, stack) := by
  induction p generalizing buffer with
  | nil => simp [close_group]
  | cons t p ih =>
    have h1 : (t != ['(']) = true := by simpa using hp t (by simp)
    rw [List.cons_append, close_group, if_pos h1, ih _ (fun t ht => hp t (by simp [ht]))]
    simp

theorem priority_additive (op : Char) (h : is_additive op = true) : priority op = 10 := by
  simp only [is_additive, Bool.or_eq_true, beq_iff_eq] at h
  rcases h with rfl | rfl <;> decide

theorem priority_multiplicative (op : Char) (h : is_multiplicative op = true) :
    priority op = 100 := by
  simp only [is_multiplicative, Bool.or_eq_true, beq_iff_eq] at h
  rcases h with (rfl | rfl) | rfl <;> decide

theorem additive_not_multiplicative (op : Char) (h : is_additive op = true) :
    is_multiplicative op = false := by
  simp only [is_additive, Bool.or_eq_true, beq_iff_eq] at h
  rcases h with rfl | rfl <;> decide

/-- An operator character of the grammar takes the last branch of the loop body. -/
theorem parse_step_operator (op : Char)
    (h : is_additive op = true ∨ is_multiplicative op = true) (st : ParseState) :
    parse_step st op =
      .ok { buffer := (push_operator op (flush_digit st.buffer st.digit) st.stack).1,
            stack := (push_operator op (flush_digit st.buffer st.digit) st.stack).2,
            digit := [] } := by
  simp only [is_additive, is_multiplicative, Bool.or_eq_true, beq_iff_eq] at h
  rcases h with (rfl | rfl) | ((rfl | rfl) | rfl) <;> rfl

theorem Expr.guard_ge (e : Expr) : 10 ≤ e.guard := by
  cases e <;> simp only [Expr.guard] <;> first | decide | (split <;> decide)

theorem Expr.guard_of_level_one (e : Expr) (h : 1 ≤ e.level) : 100 ≤ e.guard := by
  cases e with
  | lit ds => simp [Expr.guard]
  | paren e => simp [Expr.guard]
  | bin op l r =>
    simp only [Expr.level, Expr.guard] at h ⊢
    split at h
    · rename_i hm; simp [hm]
    · omega

theorem Expr.guard_of_level_two (e : Expr) (h : 2 ≤ e.level) : 101 ≤ e.guard := by
  cases e with
  | lit ds => simp [Expr.guard]
  | paren e => simp [Expr.guard]
  | bin op l r =>
    simp only [Expr.level] at h
    split at h <;> omega

/-- Every token a tree leaves on the stack has at least the guard priority of the tree. -/
theorem Expr.pending_priority (e : Expr) (hwf : e.wf = true) :
    ∀ t ∈ e.pending, e.guard ≤ priority (front t) := by
  induction e with
  | lit ds => simp [Expr.pending]
  | paren e _ => simp [Expr.pending]
  | bin op l r _ ihr =>
    simp only [Expr.wf, Bool.and_eq_true, Bool.or_eq_true, decide_eq_true_eq] at hwf
    obtain ⟨⟨_, hr⟩, hop⟩ := hwf
    intro t ht
    simp only [Expr.pending, List.mem_append, List.mem_singleton] at ht
    rcases hop with ⟨ha, _⟩ | ⟨⟨hm, _⟩, h2⟩
    · have hg : (Expr.bin op l r).guard = 10 := by
        simp [Expr.guard, additive_not_multiplicative op ha]
      rw [hg]
      rcases ht with ht | rfl
      · exact le_trans r.guard_ge (ihr hr t ht)
      · simp [front, priority_additive op ha]
    · have hg : (Expr.bin op l r).guard = 100 := by simp [Expr.guard, hm]
      rw [hg]
      rcases ht with ht | rfl
      · have := ihr hr t ht
        have := r.guard_of_level_two h2
        omega
      · simp [front, priority_multiplicative op hm]

theorem Expr.wf_lit_nonempty (ds : List Char) (h : (Expr.lit ds).wf = true) :
    flush_digit [] ds = [ds] := by
  simp only [Expr.wf, Bool.and_eq_true, Bool.not_eq_true'] at h
  simp [flush_digit, h.1]

theorem Expr.split_postorder (e : Expr) (hwf : e.wf = true) :
    e.emitted ++ flush_digit [] e.trailing ++ e.pending = e.postorder := by
  induction e with
  | lit ds =>
    simp [Expr.emitted, Expr.trailing, Expr.pending, Expr.postorder, Expr.wf_lit_nonempty ds hwf]
  | paren e _ => simp [Expr.emitted, Expr.trailing, Expr.pending, Expr.postorder, flush_digit]
  | bin op l r _ ihr =>
    simp only [Expr.wf, Bool.and_eq_true] at hwf
    simp only [Expr.emitted, Expr.trailing, Expr.pending, Expr.postorder]
    rw [← ihr hwf.1.2]
    simp

/-- Scanning the text of a well-formed tree from a state with no pending digits, on a stack
whose top has a priority below the guard of the tree: the tokens `emitted` reach the buffer,
the tokens `pending` are pushed on the stack and `trailing` is left in `digit`. -/
theorem parse_loop_text (e : Expr) (hwf : e.wf = true) :
    ∀ (buffer stack : List (List Char)), below e.guard stack →
      parse_loop e.text { buffer := buffer, stack := stack, digit := [] } =
        .ok { buffer := buffer ++ e.emitted, stack := e.pending ++ stack,
              digit := e.trailing } := by
  induction e with
  | lit ds =>
    intro buffer stack _
    simp only [Expr.wf, Bool.and_eq_true] at hwf
    simp [Expr.text, Expr.emitted, Expr.pending, Expr.trailing, parse_loop_digits ds hwf.2]
  | paren e ih =>
    intro buffer stack _
    simp only [Expr.wf] at hwf
    have hin : below e.guard (['('] :: stack) := by
      intro top htop
      simp only [List.head?_cons, Option.mem_def, Option.some.injEq] at htop
      subst htop
      have := e.guard_ge
      simp only [front, List.headD_cons]
      have h1 : priority '(' = 1 := by decide
      omega
    have hopen : parse_step { buffer := buffer, stack := stack, digit := [] } '(' =
        .ok { buffer := buffer, stack := ['('] :: stack, digit := [] } := by
      simp [parse_step, is_ignore, isdigit, Char.isDigit, flush_digit]
    have hbody := ih hwf buffer (['('] :: stack) hin
    have hne : ∀ t ∈ e.pending, t ≠ ['('] := by
      intro t ht heq
      have h1 := e.pending_priority hwf t ht
      have h2 := e.guard_ge
      subst heq
      have h3 : priority (front ['(']) = 1 := by decide
      omega
    have hclose :
        parse_step
          { buffer := buffer ++ e.emitted, stack := e.pending ++ ['('] :: stack,
            digit := e.trailing } ')' =
        .ok { buffer := buffer ++ e.postorder, stack := stack, digit := [] } := by
      have hc := close_group_pops e.pending stack
        (flush_digit (buffer ++ e.emitted) e.trailing) hne
      have hi : is_ignore ')' = false := by decide
      have hd : isdigit ')' = false := by decide
      simp only [parse_step, hi, hd, Bool.false_eq_true, if_false, beq_self_eq_true, if_true, hc]
      rw [flush_digit_eq, ← e.split_postorder hwf]
      simp
    simp only [Expr.text, parse_loop, hopen]
    rw [parse_loop_append _ _ _ _ hbody]
    simp [parse_loop, hclose, Expr.emitted, Expr.pending, Expr.trailing]
  | bin op l r ihl ihr =>
    intro buffer stack hctx
    simp only [Expr.wf, Bool.and_eq_true, Bool.or_eq_true, decide_eq_true_eq] at hwf
    obtain ⟨⟨hl, hr⟩, hop⟩ := hwf
    -- priorities fixed by the grammar
    have hfacts : (Expr.bin op l r).guard = priority op ∧ priority op ≤ l.guard ∧
        priority op < r.guard ∧ (is_additive op = true ∨ is_multiplicative op = true) := by
      rcases hop with ⟨ha, h1⟩ | ⟨⟨hm, h1⟩, h2⟩
      · refine ⟨?_, ?_, ?_, Or.inl ha⟩
        · simp [Expr.guard, additive_not_multiplicative op ha, priority_additive op ha]
        · rw [priority_additive op ha]; exact l.guard_ge
        · rw [priority_additive op ha]; have := r.guard_of_level_one h1; omega
      · refine ⟨?_, ?_, ?_, Or.inr hm⟩
        · simp [Expr.guard, hm, priority_multiplicative op hm]
        · rw [priority_multiplicative op hm]; exact l.guard_of_level_one h1
        · rw [priority_multiplicative op hm]; have := r.guard_of_level_two h2; omega
    obtain ⟨hg, hgl, hgr, hkind⟩ := hfacts
    have hbelow : below (priority op) stack := by rw [← hg]; exact hctx
    have hleft := ihl hl buffer stack (fun top htop => lt_of_lt_of_le (hbelow top htop) hgl)
    have hpop := push_operator_pops op l.pending stack
      (flush_digit (buffer ++ l.emitted) l.trailing)
      (fun t ht => le_trans hgl (l.pending_priority hl t ht)) hbelow
    have hstep :
        parse_step
          { buffer := buffer ++ l.emitted, stack := l.pending ++ stack,
            digit := l.trailing } op =
        .ok { buffer := buffer ++ l.postorder, stack := [op] :: stack, digit := [] } := by
      rw [parse_step_operator op hkind, hpop, flush_digit_eq, ← l.split_postorder hl]
      simp
    have hin : below r.guard ([op] :: stack) := by
      intro top htop
      simp only [List.head?_cons, Option.mem_def, Option.some.injEq] at htop
      subst htop
      simpa [front] using hgr
    have hright := ihr hr (buffer ++ l.postorder) ([op] :: stack) hin
    simp only [Expr.text]
    rw [parse_loop_append _ _ _ _ hleft]
    simp only [parse_loop, hstep]
    rw [hright]
    simp [Expr.emitted, Expr.pending, Expr.trailing]

/-- The converter applied to the text of a well-formed tree appends its post-order
traversal to the buffer. -/
theorem parse_text (e : Expr) (hwf : e.wf = true) (self : rpn) :
    self.parse e.text = .ok { buffer := self.buffer ++ e.postorder } := by
  have h := parse_loop_text e hwf self.buffer [] (by intro top htop; simp at htop)
  simp only [rpn.parse, h, parse_finish]
  rw [flush_digit_eq, ← e.split_postorder hwf]
  simp

/-! ## Facts about the evaluator -/

theorem isdigit_facts (c : Char) (h : isdigit c = true) :
    isspace c = false ∧ c ≠ '-' ∧ c ≠ '+' := by
  simp only [isdigit, Char.isDigit, Bool.and_eq_true, decide_eq_true_eq] at h
  have h48 : (48 : Nat) ≤ c.val.toNat := h.1
  simp only [isspace, Bool.or_eq_false_iff, beq_eq_false_iff_ne, ne_eq]
  refine ⟨⟨⟨⟨⟨⟨?_, ?_⟩, ?_⟩, ?_⟩, ?_⟩, ?_⟩, ?_, ?_⟩ <;> (rintro rfl; revert h48; decide)

theorem takeWhile_all {α : Type} (p : α → Bool) (l : List α) (h : l.all p = true) :
    l.takeWhile p = l := by
  induction l with
  | nil => rfl
  | cons a l ih =>
    simp only [List.all_cons, Bool.and_eq_true] at h
    simp [List.takeWhile, h.1, ih h.2]

/-- On a non-empty string of digits `std::stoi` returns the decimal value when it fits in
`int` and throws otherwise. -/
theorem stoi_digits (ds : List Char) (hne : ds ≠ []) (hds : ds.all isdigit = true) :
    stoi ds = if (decimal_value ds : Int) ≤ INT_MAX then some (decimal_value ds : Int)
      else none := by
  cases ds with
  | nil => exact absurd rfl hne
  | cons c cs =>
    have hc : isdigit c = true := by
      simp only [List.all_cons, Bool.and_eq_true] at hds; exact hds.1
    obtain ⟨hsp, hminus, hplus⟩ := isdigit_facts c hc
    have hmin : INT_MIN ≤ (decimal_value (c :: cs) : Int) := by
      have : (0 : Int) ≤ (decimal_value (c :: cs) : Int) := Int.ofNat_nonneg _
      have : INT_MIN ≤ 0 := by decide
      omega
    have htake : List.takeWhile isdigit (c :: cs) = c :: cs := takeWhile_all _ _ hds
    simp only [stoi, List.dropWhile, hsp, List.head?_cons, Option.some_beq_some,
      beq_eq_false_iff_ne.mpr hminus, beq_eq_false_iff_ne.mpr hplus, Bool.or_self,
      Bool.false_eq_true, if_false, htake, List.isEmpty_cons, hmin, true_and]

theorem stoi_operator (op : Char)
    (h : is_additive op = true ∨ is_multiplicative op = true) :
    stoi [op] = none ∧ is_operator [op] = true := by
  simp only [is_additive, is_multiplicative, Bool.or_eq_true, beq_iff_eq] at h
  rcases h with (rfl | rfl) | ((rfl | rfl) | rfl) <;> exact ⟨by rfl, by rfl⟩

theorem eval_loop_append (s t : List (List Char)) (stack stack' : List Int)
    (h : eval_loop s stack = .ok stack') :
    eval_loop (s ++ t) stack = eval_loop t stack' := by
  induction s generalizing stack with
  | nil => simp [eval_loop] at h; subst h; rfl
  | cons c s ih =>
    simp only [List.cons_append, eval_loop] at h ⊢
    cases hstep : eval_step stack c with
    | error f => simp [hstep] at h
    | ok st1 => simp only [hstep] at h ⊢; exact ih st1 h

/-- A numeric token pushes the value `std::stoi` returns for it. -/
theorem eval_step_numeric (v : List Char) (n : Int) (h : stoi v = some n) (stack : List Int) :
    eval_step stack v = .ok (n :: stack) := by
  simp [eval_step, is_numeric, h]

/-- An operator token of the grammar pops `a` then `b` and applies the operator to them. -/
theorem eval_step_operator (op : Char)
    (h : is_additive op = true ∨ is_multiplicative op = true) (a b : Int) (stack : List Int) :
    eval_step (a :: b :: stack) [op] = apply_operator [op] b a stack := by
  obtain ⟨h1, h2⟩ := stoi_operator op h
  simp [eval_step, is_numeric, h1, h2, pop_as]

theorem fits_eq_some (v w : Int) (h : fits v = some w) :
    v = w ∧ int_result v = .ok v := by
  unfold fits at h
  split at h
  · rename_i hr
    simp only [Option.some.injEq] at h
    exact ⟨h, by simp [int_result, hr]⟩
  · simp at h

/-- Where the standard meaning of an operator is defined and no remainder of `INT_MIN` by `-1`
is taken, the evaluator pushes that value. -/
theorem apply_operator_infix (op : Char) (x y v : Int) (stack : List Int)
    (h : infix_op op x y = some v)
    (hrem : (op == '%' && x == INT_MIN && y == -1) = false) :
    apply_operator [op] x y stack = .ok (v :: stack) := by
  unfold infix_op at h
  split at h
  · rename_i hop; simp only [beq_iff_eq] at hop; subst hop
    obtain ⟨rfl, hr⟩ := fits_eq_some _ _ h
    simp [apply_operator, hr, Except.map]
  split at h
  · rename_i hop; simp only [beq_iff_eq] at hop; subst hop
    obtain ⟨rfl, hr⟩ := fits_eq_some _ _ h
    simp [apply_operator, hr, Except.map]
  split at h
  · rename_i hop; simp only [beq_iff_eq] at hop; subst hop
    obtain ⟨rfl, hr⟩ := fits_eq_some _ _ h
    simp [apply_operator, hr, Except.map]
  split at h
  · rename_i hop; simp only [beq_iff_eq] at hop; subst hop
    split at h
    · simp at h
    · rename_i hy
      obtain ⟨rfl, hr⟩ := fits_eq_some _ _ h
      simp [apply_operator, hr, Except.map, hy]
  split at h
  · rename_i hop; simp only [beq_iff_eq] at hop; subst hop
    split at h
    · simp at h
    · rename_i hy
      obtain ⟨rfl, hr⟩ := fits_eq_some _ _ h
      simp only [beq_self_eq_true, Bool.true_and] at hrem
      simp [apply_operator, hr, Except.map, hy, hrem]
  · simp at h

/-- Evaluating the post-order traversal of a well-formed tree whose standard value is `v`
pushes `v` on the value stack. -/
theorem eval_loop_postorder (e : Expr) (hwf : e.wf = true) (hrem : e.rem_defined = true) :
    ∀ (v : Int), e.value = some v →
      ∀ stack : List Int, eval_loop e.postorder stack = .ok (v :: stack) := by
  induction e with
  | lit ds =>
    intro v hv stack
    simp only [Expr.wf, Bool.and_eq_true, Bool.not_eq_true', List.isEmpty_eq_false] at hwf
    simp only [Expr.value] at hv
    obtain ⟨rfl, hr⟩ := fits_eq_some _ _ hv
    have hmax : (decimal_value ds : Int) ≤ INT_MAX := by
      unfold fits at hv
      split at hv
      · rename_i h; exact h.2
      · simp at hv
    have hs : stoi ds = some (decimal_value ds : Int) := by
      rw [stoi_digits ds (by simpa using hwf.1) hwf.2, if_pos hmax]
    simp [Expr.postorder, eval_loop, eval_step_numeric ds _ hs]
  | paren e ih =>
    intro v hv stack
    simp only [Expr.wf] at hwf
    simp only [Expr.rem_defined] at hrem
    simp only [Expr.value] at hv
    simpa [Expr.postorder] using ih hwf hrem v hv stack
  | bin op l r ihl ihr =>
    intro v hv stack
    simp only [Expr.wf, Bool.and_eq_true, Bool.or_eq_true, decide_eq_true_eq] at hwf
    obtain ⟨⟨hl, hr⟩, hop⟩ := hwf
    have hkind : is_additive op = true ∨ is_multiplicative op = true := by
      rcases hop with ⟨ha, _⟩ | ⟨⟨hm, _⟩, _⟩
      · exact Or.inl ha
      · exact Or.inr hm
    simp only [Expr.rem_defined, Bool.and_eq_true, Bool.not_eq_true'] at hrem
    obtain ⟨⟨hrl, hrr⟩, hcorner⟩ := hrem
    simp only [Expr.value] at hv
    cases hx : l.value with
    | none => simp [hx] at hv
    | some x =>
      cases hy : r.value with
      | none => simp [hx, hy] at hv
      | some y =>
        simp only [hx, hy] at hv hcorner
        have hc : (op == '%' && x == INT_MIN && y == -1) = false := by
          simpa using hcorner
        simp only [Expr.postorder]
        rw [List.append_assoc, eval_loop_append _ _ _ _ (ihl hl hrl x hx stack),
          eval_loop_append _ _ _ _ (ihr hr hrr y hy (x :: stack))]
        simp only [eval_loop, eval_step_operator op hkind,
          apply_operator_infix op x y v stack hv hc]

/-- Outcome of `calc` on the text of a well-formed tree: the evaluation of its post-order
traversal. -/
theorem calc_text (e : Expr) (hwf : e.wf = true) :
    rpn.calc e.text = rpn.eval { buffer := e.postorder } := by
  simp [rpn.calc, rpn.of_string, parse_text e hwf, rpn.empty]

/-- Value of the text of a well-formed tree whose standard value is defined. -/
theorem calc_value (e : Expr) (v : Int) (hwf : e.wf = true) (hv : e.value = some v)
    (hrem : e.rem_defined = true) : rpn.calc e.text = .ok v := by
  rw [calc_text e hwf]
  simp [rpn.eval, eval_loop_postorder e hwf hrem v hv []]

/-! ## Decimal numerals -/

theorem digitChar_lt_ten :
    ∀ m < 10, isdigit (Nat.digitChar m) = true ∧ digit_value (Nat.digitChar m) = m := by
  decide

theorem decimal_value_append (xs ys : List Char) :
    decimal_value (xs ++ ys) =
      ys.foldl (fun acc c => 10 * acc + digit_value c) (decimal_value xs) := by
  simp [decimal_value, List.foldl_append]

theorem toDigitsCore_append (fuel n : Nat) (acc : List Char) :
    Nat.toDigitsCore 10 fuel n acc = Nat.toDigitsCore 10 fuel n [] ++ acc := by
  induction fuel generalizing n acc with
  | zero => simp [Nat.toDigitsCore]
  | succ fuel ih =>
    simp only [Nat.toDigitsCore]
    split
    · simp
    · rw [ih (n / 10) (Nat.digitChar (n % 10) :: acc), ih (n / 10) [Nat.digitChar (n % 10)]]
      simp

theorem toDigitsCore_spec (fuel n : Nat) (h : n < fuel) :
    Nat.toDigitsCore 10 fuel n [] ≠ [] ∧
      (Nat.toDigitsCore 10 fuel n []).all isdigit = true ∧
      decimal_value (Nat.toDigitsCore 10 fuel n []) = n := by
  induction fuel generalizing n with
  | zero => omega
  | succ fuel ih =>
    obtain ⟨hd, hv⟩ := digitChar_lt_ten (n % 10) (Nat.mod_lt n (by decide))
    simp only [Nat.toDigitsCore]
    split
    · rename_i h0
      refine ⟨by simp, by simp [hd], ?_⟩
      simp only [decimal_value, List.foldl_cons, List.foldl_nil, hv]
      omega
    · rename_i h0
      have hlt : n / 10 < fuel := by omega
      obtain ⟨_, h2, h3⟩ := ih (n / 10) hlt
      rw [toDigitsCore_append]
      refine ⟨by simp, by simp [h2, hd], ?_⟩
      rw [decimal_value_append, h3]
      simp only [List.foldl_cons, List.foldl_nil, hv]
      omega

/-- The decimal numeral of `n` is a non-empty string of digits whose value is `n`. -/
theorem decimal_spec (n : Nat) :
    decimal n ≠ [] ∧ (decimal n).all isdigit = true ∧ decimal_value (decimal n) = n :=
  toDigitsCore_spec (n + 1) n (Nat.lt_succ_self n)

theorem lit_decimal_wf (n : Nat) : (Expr.lit (decimal n)).wf = true := by
  obtain ⟨h1, h2, _⟩ := decimal_spec n
  simp [Expr.wf, h1, h2]

theorem lit_decimal_value (n : Nat) (h : (n : Int) ≤ INT_MAX) :
    (Expr.lit (decimal n)).value = some (n : Int) := by
  have hmin : INT_MIN ≤ (n : Int) := by
    have : INT_MIN ≤ 0 := by decide
    omega
  simp [Expr.value, (decimal_spec n).2.2, fits, h, hmin]

theorem stoi_decimal (n : Nat) (h : (n : Int) ≤ INT_MAX) : stoi (decimal n) = some (n : Int) := by
  obtain ⟨h1, h2, h3⟩ := decimal_spec n
  rw [stoi_digits _ h1 h2, h3, if_pos h]

/-! ## White space -/

theorem parse_loop_strip (s : List Char) (st : ParseState) :
    parse_loop (strip_whitespace s) st = parse_loop s st := by
  induction s generalizing st with
  | nil => rfl
  | cons c s ih =>
    by_cases hc : is_ignore c = true
    · have hdrop : strip_whitespace (c :: s) = strip_whitespace s := by
        simp only [is_ignore] at hc
        simp only [strip_whitespace, List.filter_cons, hc, Bool.not_true, Bool.false_eq_true,
          if_false]
      have hstep : parse_step st c = .ok st := by simp [parse_step, hc]
      rw [hdrop, ih]
      simp [parse_loop, hstep]
    · have hkeep : strip_whitespace (c :: s) = c :: strip_whitespace s := by
        have hc' := eq_false_of_ne_true hc
        simp only [is_ignore] at hc'
        simp only [strip_whitespace, List.filter_cons, hc', Bool.not_false, if_true]
      rw [hkeep]
      simp only [parse_loop]
      cases parse_step st c with
      | error f => rfl
      | ok st1 => exact ih st1

theorem parse_strip (self : rpn) (s : List Char) :
    self.parse (strip_whitespace s) = self.parse s := by
  simp [rpn.parse, parse_loop_strip]

/-! ## Small expressions over decimal numerals -/

theorem int_bounds : INT_MAX = 2147483647 ∧ INT_MIN = -2147483648 := ⟨rfl, rfl⟩

theorem fits_of_bounds (v : Int) (h1 : INT_MIN ≤ v) (h2 : v ≤ INT_MAX) : fits v = some v := by
  simp [fits, h1, h2]

theorem wf_bin_additive (op : Char) (l r : Expr) (hop : is_additive op = true)
    (hl : l.wf = true) (hr : r.wf = true) (h : 1 ≤ r.level) : (Expr.bin op l r).wf = true := by
  simp [Expr.wf, hop, hl, hr, h]

theorem wf_bin_multiplicative (op : Char) (l r : Expr) (hop : is_multiplicative op = true)
    (hl : l.wf = true) (hr : r.wf = true) (h1 : 1 ≤ l.level) (h2 : 2 ≤ r.level) :
    (Expr.bin op l r).wf = true := by
  simp [Expr.wf, hop, hl, hr, h1, h2]

theorem value_bin (op : Char) (l r : Expr) (x y : Int) (hx : l.value = some x)
    (hy : r.value = some y) : (Expr.bin op l r).value = infix_op op x y := by
  simp [Expr.value, hx, hy]

theorem rem_defined_bin (op : Char) (l r : Expr) (hop : op ≠ '%')
    (hl : l.rem_defined = true) (hr : r.rem_defined = true) :
    (Expr.bin op l r).rem_defined = true := by
  simp [Expr.rem_defined, hl, hr, hop]

theorem infix_op_add (x y : Int) : infix_op '+' x y = fits (x + y) := rfl

theorem infix_op_sub (x y : Int) : infix_op '-' x y = fits (x - y) := rfl

theorem infix_op_mul (x y : Int) : infix_op '*' x y = fits (x * y) := rfl

theorem infix_op_div (x y : Int) (h : y ≠ 0) : infix_op '/' x y = fits (Int.tdiv x y) := by
  have h1 : infix_op '/' x y = if y = 0 then none else fits (Int.tdiv x y) := rfl
  rw [h1, if_neg h]

theorem infix_op_mod (x y : Int) (h : y ≠ 0) : infix_op '%' x y = fits (Int.tmod x y) := by
  have h1 : infix_op '%' x y = if y = 0 then none else fits (Int.tmod x y) := rfl
  rw [h1, if_neg h]

theorem sub_chain_calc (a b c : Nat) (ha : (a : Int) ≤ INT_MAX) (hb : (b : Int) ≤ INT_MAX)
    (hc : (c : Int) ≤ INT_MAX) (hr : INT_MIN ≤ (a : Int) - b - c) :
    rpn.calc (decimal a ++ '-' :: (decimal b ++ '-' :: decimal c)) =
      .ok ((a : Int) - b - c) := by
  obtain ⟨hmax, hmin⟩ := int_bounds
  have hwf : (sub_chain a b c).wf = true :=
    wf_bin_additive _ _ _ rfl
      (wf_bin_additive _ _ _ rfl (lit_decimal_wf a) (lit_decimal_wf b) (by simp [Expr.level]))
      (lit_decimal_wf c) (by simp [Expr.level])
  have hv1 : (Expr.bin '-' (.lit (decimal a)) (.lit (decimal b))).value
      = some ((a : Int) - b) := by
    rw [value_bin _ _ _ _ _ (lit_decimal_value a ha) (lit_decimal_value b hb), infix_op_sub,
      fits_of_bounds _ (by omega) (by omega)]
  have hv : (sub_chain a b c).value = some ((a : Int) - b - c) := by
    rw [sub_chain, value_bin _ _ _ _ _ hv1 (lit_decimal_value c hc), infix_op_sub,
      fits_of_bounds _ (by omega) (by omega)]
  have hrem : (sub_chain a b c).rem_defined = true :=
    rem_defined_bin _ _ _ (by decide) (rem_defined_bin _ _ _ (by decide) rfl rfl) rfl
  have h := calc_value _ _ hwf hv hrem
  simpa [sub_chain, Expr.text] using h

theorem sum_of_product_calc (a b c : Nat) (ha : (a : Int) ≤ INT_MAX) (hb : (b : Int) ≤ INT_MAX)
    (hc : (c : Int) ≤ INT_MAX) (hr : (a : Int) + b * c ≤ INT_MAX) :
    rpn.calc (decimal a ++ '+' :: (decimal b ++ '*' :: decimal c)) =
      .ok ((a : Int) + b * c) := by
  obtain ⟨hmax, hmin⟩ := int_bounds
  have hbc : (0 : Int) ≤ (b : Int) * c := by positivity
  have hwf : (sum_of_product a b c).wf = true :=
    wf_bin_additive _ _ _ rfl (lit_decimal_wf a)
      (wf_bin_multiplicative _ _ _ rfl (lit_decimal_wf b) (lit_decimal_wf c)
        (by simp [Expr.level]) (by simp [Expr.level]))
      (by simp [Expr.level, is_multiplicative])
  have hv1 : (Expr.bin '*' (.lit (decimal b)) (.lit (decimal c))).value
      = some ((b : Int) * c) := by
    rw [value_bin _ _ _ _ _ (lit_decimal_value b hb) (lit_decimal_value c hc), infix_op_mul,
      fits_of_bounds _ (by omega) (by omega)]
  have hv : (sum_of_product a b c).value = some ((a : Int) + b * c) := by
    rw [sum_of_product, value_bin _ _ _ _ _ (lit_decimal_value a ha) hv1, infix_op_add,
      fits_of_bounds _ (by omega) (by omega)]
  have hrem : (sum_of_product a b c).rem_defined = true :=
    rem_defined_bin _ _ _ (by decide) rfl (rem_defined_bin _ _ _ (by decide) rfl rfl)
  have h := calc_value _ _ hwf hv hrem
  simpa [sum_of_product, Expr.text] using h

theorem product_of_sum_calc (a b c : Nat) (ha : (a : Int) ≤ INT_MAX) (hb : (b : Int) ≤ INT_MAX)
    (hc : (c : Int) ≤ INT_MAX) (hs : (a : Int) + b ≤ INT_MAX)
    (hr : ((a : Int) + b) * c ≤ INT_MAX) :
    rpn.calc ('(' :: (decimal a ++ '+' :: (decimal b ++ ')' :: '*' :: decimal c))) =
      .ok (((a : Int) + b) * c) := by
  obtain ⟨hmax, hmin⟩ := int_bounds
  have hp : (0 : Int) ≤ ((a : Int) + b) * c := by positivity
  have hwf : (product_of_sum a b c).wf = true :=
    wf_bin_multiplicative _ _ _ rfl
      (wf_bin_additive _ _ _ rfl (lit_decimal_wf a) (lit_decimal_wf b) (by simp [Expr.level]))
      (lit_decimal_wf c) (by simp [Expr.level]) (by simp [Expr.level])
  have hv1 : (Expr.paren (.bin '+' (.lit (decimal a)) (.lit (decimal b)))).value
      = some ((a : Int) + b) := by
    rw [Expr.value, value_bin _ _ _ _ _ (lit_decimal_value a ha) (lit_decimal_value b hb),
      infix_op_add, fits_of_bounds _ (by omega) (by omega)]
  have hv : (product_of_sum a b c).value = some (((a : Int) + b) * c) := by
    rw [product_of_sum, value_bin _ _ _ _ _ hv1 (lit_decimal_value c hc), infix_op_mul,
      fits_of_bounds _ (by omega) (by omega)]
  have hrem : (product_of_sum a b c).rem_defined = true :=
    rem_defined_bin _ _ _ (by decide) (rem_defined_bin _ _ _ (by decide) rfl rfl) rfl
  have h := calc_value _ _ hwf hv hrem
  simpa [product_of_sum, Expr.text] using h

/-! ## Division and remainder -/

theorem natAbs_tmod (b a : Int) : (Int.tmod b a).natAbs = b.natAbs % a.natAbs := by
  cases b <;> cases a <;> simp [Int.tmod, Int.natAbs_neg] <;> rfl

theorem tdiv_in_range (b a : Int) (hb : INT_MIN ≤ b ∧ b ≤ INT_MAX) (h0 : a ≠ 0)
    (hex : ¬(b = INT_MIN ∧ a = -1)) :
    INT_MIN ≤ Int.tdiv b a ∧ Int.tdiv b a ≤ INT_MAX := by
  obtain ⟨hmax, hmin⟩ := int_bounds
  have hq : (Int.tdiv b a).natAbs = b.natAbs / a.natAbs := Int.natAbs_tdiv b a
  have hle : b.natAbs / a.natAbs ≤ b.natAbs := Nat.div_le_self _ _
  have ha1 : 1 ≤ a.natAbs := by omega
  by_cases hbig : b.natAbs / a.natAbs = 2147483648
  · have hbn : b.natAbs = 2147483648 := by omega
    have hb' : b = INT_MIN := by omega
    have ha' : a.natAbs = 1 := by
      by_contra hne
      have h2 : 2 ≤ a.natAbs := by omega
      have hmul := Nat.div_mul_le_self b.natAbs a.natAbs
      rw [hbig] at hmul
      omega
    have hone : a = 1 := by
      rcases Int.natAbs_eq a with h | h
      · omega
      · exact absurd ⟨hb', by omega⟩ hex
    subst hone
    rw [Int.tdiv_one]
    omega
  · omega

theorem tmod_in_range (b a : Int) (ha : INT_MIN ≤ a ∧ a ≤ INT_MAX) (h0 : a ≠ 0) :
    INT_MIN ≤ Int.tmod b a ∧ Int.tmod b a ≤ INT_MAX := by
  obtain ⟨hmax, hmin⟩ := int_bounds
  have hr : (Int.tmod b a).natAbs = b.natAbs % a.natAbs := natAbs_tmod b a
  have hlt : b.natAbs % a.natAbs < a.natAbs := Nat.mod_lt _ (by omega)
  omega

theorem tdiv_sign (b a : Int) :
    (0 ≤ b * a → 0 ≤ Int.tdiv b a) ∧ (b * a ≤ 0 → Int.tdiv b a ≤ 0) := by
  rcases Int.le_total 0 b with hb | hb <;> rcases Int.le_total 0 a with ha | ha
  · refine ⟨fun _ => Int.tdiv_nonneg hb ha, fun h => ?_⟩
    have hz : b * a = 0 := le_antisymm h (Int.mul_nonneg hb ha)
    rcases Int.mul_eq_zero.mp hz with h | h <;> simp [h]
  · refine ⟨fun h => ?_, fun _ => Int.tdiv_nonpos hb ha⟩
    have hz : b * a = 0 := le_antisymm (Int.mul_nonpos_of_nonneg_of_nonpos hb ha) h
    rcases Int.mul_eq_zero.mp hz with h | h <;> simp [h]
  · have hq : Int.tdiv b a = -(Int.tdiv (-b) a) := by simp
    have hn : 0 ≤ Int.tdiv (-b) a := Int.tdiv_nonneg (by omega) ha
    refine ⟨fun h => ?_, fun _ => by omega⟩
    have hz : b * a = 0 := le_antisymm (Int.mul_nonpos_of_nonpos_of_nonneg hb ha) h
    rcases Int.mul_eq_zero.mp hz with h | h <;> simp [h]
  · have hq : Int.tdiv b a = Int.tdiv (-b) (-a) := (Int.neg_tdiv_neg b a).symm
    have hn : 0 ≤ Int.tdiv (-b) (-a) := Int.tdiv_nonneg (by omega) (by omega)
    refine ⟨fun _ => by omega, fun h => ?_⟩
    have hz : b * a = 0 := le_antisymm h (Int.mul_nonneg_of_nonpos_of_nonpos hb ha)
    rcases Int.mul_eq_zero.mp hz with h | h <;> simp [h]

theorem int_result_of_bounds (v : Int) (h : INT_MIN ≤ v ∧ v ≤ INT_MAX) :
    int_result v = .ok v := by
  simp [int_result, h]

theorem eval_step_div (b a : Int) (stack : List Int) (hb : INT_MIN ≤ b ∧ b ≤ INT_MAX)
    (h0 : a ≠ 0) (hex : ¬(b = INT_MIN ∧ a = -1)) :
    eval_step (a :: b :: stack) ['/'] = .ok (Int.tdiv b a :: stack) := by
  rw [eval_step_operator '/' (Or.inr rfl)]
  have h1 : apply_operator ['/'] b a stack =
      if (a == 0) = true then .error (.range_error "ERROR: division by zero.")
      else (int_result (Int.tdiv b a)).map (· :: stack) := rfl
  rw [h1, if_neg (by simpa using h0), int_result_of_bounds _ (tdiv_in_range b a hb h0 hex)]
  rfl

theorem eval_step_mod (b a : Int) (stack : List Int) (ha : INT_MIN ≤ a ∧ a ≤ INT_MAX)
    (h0 : a ≠ 0) (hex : ¬(b = INT_MIN ∧ a = -1)) :
    eval_step (a :: b :: stack) ['%'] = .ok (Int.tmod b a :: stack) := by
  rw [eval_step_operator '%' (Or.inr rfl)]
  have h1 : apply_operator ['%'] b a stack =
      if (a == 0) = true then
        .error (.range_error "ERROR: calculated the remainder with zero")
      else if (b == INT_MIN && a == -1) = true then .error .undefined
      else (int_result (Int.tmod b a)).map (· :: stack) := rfl
  rw [h1, if_neg (by simpa using h0), if_neg (by simpa using hex),
    int_result_of_bounds _ (tmod_in_range b a ha h0)]
  rfl

theorem quotient_calc (n d : Nat) (hn : (n : Int) ≤ INT_MAX) (hd : (d : Int) ≤ INT_MAX)
    (hd0 : d ≠ 0) :
    rpn.calc (decimal n ++ '/' :: decimal d) = .ok ((n / d : Nat) : Int) := by
  obtain ⟨hmax, hmin⟩ := int_bounds
  have hwf : (Expr.bin '/' (.lit (decimal n)) (.lit (decimal d))).wf = true :=
    wf_bin_multiplicative _ _ _ rfl (lit_decimal_wf n) (lit_decimal_wf d)
      (by simp [Expr.level]) (by simp [Expr.level])
  have hle : n / d ≤ n := Nat.div_le_self n d
  have hpos : (0 : Int) ≤ ((n / d : Nat) : Int) := Int.ofNat_nonneg _
  have hv : (Expr.bin '/' (.lit (decimal n)) (.lit (decimal d))).value
      = some ((n / d : Nat) : Int) := by
    rw [value_bin _ _ _ _ _ (lit_decimal_value n hn) (lit_decimal_value d hd),
      infix_op_div _ _ (by omega), ← Int.ofNat_tdiv, fits_of_bounds _ (by omega) (by omega)]
  have hrem : (Expr.bin '/' (.lit (decimal n)) (.lit (decimal d))).rem_defined = true :=
    rem_defined_bin _ _ _ (by decide) rfl rfl
  have h := calc_value _ _ hwf hv hrem
  simpa [Expr.text] using h

theorem remainder_calc (n d : Nat) (hn : (n : Int) ≤ INT_MAX) (hd : (d : Int) ≤ INT_MAX)
    (hd0 : d ≠ 0) :
    rpn.calc (decimal n ++ '%' :: decimal d) = .ok ((n % d : Nat) : Int) := by
  obtain ⟨hmax, hmin⟩ := int_bounds
  have hwf : (Expr.bin '%' (.lit (decimal n)) (.lit (decimal d))).wf = true :=
    wf_bin_multiplicative _ _ _ rfl (lit_decimal_wf n) (lit_decimal_wf d)
      (by simp [Expr.level]) (by simp [Expr.level])
  have hle : n % d ≤ n := Nat.mod_le n d
  have hpos : (0 : Int) ≤ ((n % d : Nat) : Int) := Int.ofNat_nonneg _
  have hv : (Expr.bin '%' (.lit (decimal n)) (.lit (decimal d))).value
      = some ((n % d : Nat) : Int) := by
    rw [value_bin _ _ _ _ _ (lit_decimal_value n hn) (lit_decimal_value d hd),
      infix_op_mod _ _ (by omega), ← Int.ofNat_tmod, fits_of_bounds _ (by omega) (by omega)]
  have hrem : (Expr.bin '%' (.lit (decimal n)) (.lit (decimal d))).rem_defined = true := by
    have hne : ¬ ((n : Int) = INT_MIN) := by omega
    simp [Expr.rem_defined, lit_decimal_value n hn, hne]
  have h := calc_value _ _ hwf hv hrem
  simpa [Expr.text] using h

/-! ## Shape of the two inner loops of the converter -/

/-- When the `)` branch completes, it has moved a run `p` of tokens other than `"("` from the
top of the stack to the buffer and dropped the `"("` below it. -/
theorem close_group_ok (buffer stack buffer' stack' : List (List Char))
    (h : close_group buffer stack = .ok (buffer', stack')) :
    ∃ p, stack = p ++ ['('] :: stack' ∧ buffer' = buffer ++ p ∧ ∀ t ∈ p, t ≠ ['('] := by
  induction stack generalizing buffer with
  | nil => simp [close_group] at h
  | cons top stack ih =>
    rw [close_group] at h
    split at h
    · rename_i hne
      obtain ⟨p, h1, h2, h3⟩ := ih _ h
      refine ⟨top :: p, by simp [h1], by simp [h2], ?_⟩
      intro t ht
      rcases List.mem_cons.mp ht with rfl | ht
      · simpa using hne
      · exact h3 t ht
    · rename_i heq
      have htop : top = ['('] := by simpa using heq
      simp only [Except.ok.injEq, Prod.mk.injEq] at h
      exact ⟨[], by simp [htop, h.2], by simp [h.1], by simp⟩

/-- The operator branch moves a run `p` of tokens of priority at least that of the character
from the top of the stack to the buffer and pushes the character on the rest. -/
theorem push_operator_shape (c : Char) (buffer stack : List (List Char)) :
    ∃ p rest, stack = p ++ rest ∧ push_operator c buffer stack = (buffer ++ p, [c] :: rest) ∧
      (∀ t ∈ p, priority c ≤ priority (front t)) ∧ below (priority c) rest := by
  induction stack generalizing buffer with
  | nil => exact ⟨[], [], rfl, by simp [push_operator], by simp, by intro t ht; simp at ht⟩
  | cons top stack ih =>
    by_cases hp : priority c ≤ priority (front top)
    · obtain ⟨p, rest, h1, h2, h3, h4⟩ := ih (buffer ++ [top])
      refine ⟨top :: p, rest, by simp [h1], ?_, ?_, h4⟩
      · rw [push_operator, if_pos hp, h2]; simp
      · intro t ht
        rcases List.mem_cons.mp ht with rfl | ht
        · exact hp
        · exact h3 t ht
    · refine ⟨[], top :: stack, rfl, ?_, by simp, ?_⟩
      · rw [push_operator, if_neg hp]; simp
      · intro t ht
        simp only [List.head?_cons, Option.mem_def, Option.some.injEq] at ht
        subst ht
        omega

theorem flush_digit_mem (buffer : List (List Char)) (digit t : List Char)
    (h : t ∈ flush_digit buffer digit) : t ∈ buffer ∨ (t = digit ∧ digit ≠ []) := by
  unfold flush_digit at h
  split at h
  · rename_i hne
    rcases List.mem_append.mp h with h | h
    · exact Or.inl h
    · exact Or.inr ⟨by simpa using h, by simpa using hne⟩
  · exact Or.inl h

theorem digits_ne_paren (d : List Char) (h : d.all isdigit = true) :
    d ≠ ['('] ∧ d ≠ [')'] := by
  constructor <;> (rintro rfl; revert h; decide)

/-! ## Parentheses in the output -/

theorem parse_step_no_close (st st' : ParseState) (c : Char)
    (h : parse_step st c = .ok st') (hinv : no_close st) : no_close st' := by
  obtain ⟨hb, hs, hd⟩ := hinv
  have hflush : ∀ t ∈ flush_digit st.buffer st.digit, t ≠ [')'] := by
    intro t ht
    rcases flush_digit_mem _ _ _ ht with h1 | ⟨h1, _⟩
    · exact hb t h1
    · rw [h1]; exact (digits_ne_paren _ hd).2
  unfold parse_step at h
  split at h
  · simp only [Except.ok.injEq] at h; subst h; exact ⟨hb, hs, hd⟩
  split at h
  · rename_i hdig
    simp only [Except.ok.injEq] at h; subst h
    exact ⟨hb, hs, by simp [hd, hdig]⟩
  simp only at h
  split at h
  · split at h
    · rename_i b' s' hcg
      simp only [Except.ok.injEq] at h; subst h
      obtain ⟨p, h1, h2, _⟩ := close_group_ok _ _ _ _ hcg
      refine ⟨?_, ?_, rfl⟩
      · intro t ht
        rw [h2] at ht
        rcases List.mem_append.mp ht with ht | ht
        · exact hflush t ht
        · exact hs t (by rw [h1]; simp [ht])
      · intro t ht
        exact hs t (by rw [h1]; simp [ht])
    · simp at h
  split at h
  · rename_i hopen
    simp only [Except.ok.injEq] at h; subst h
    refine ⟨hflush, ?_, rfl⟩
    intro t ht
    rcases List.mem_cons.mp ht with rfl | ht
    · have hc : c = '(' := by simpa using hopen
      subst hc; decide
    · exact hs t ht
  · rename_i hnc _
    simp only [Except.ok.injEq] at h; subst h
    obtain ⟨p, rest, h1, h2, _, _⟩ := push_operator_shape c (flush_digit st.buffer st.digit)
      st.stack
    rw [h2]
    refine ⟨?_, ?_, rfl⟩
    · intro t ht
      rcases List.mem_append.mp ht with ht | ht
      · exact hflush t ht
      · exact hs t (by rw [h1]; simp [ht])
    · intro t ht
      rcases List.mem_cons.mp ht with rfl | ht
      · intro heq
        have hc : c = ')' := by simpa using heq
        exact hnc (by simp [hc])
      · exact hs t (by rw [h1]; simp [ht])

theorem parse_loop_no_close (s : List Char) (st st' : ParseState)
    (h : parse_loop s st = .ok st') (hinv : no_close st) : no_close st' := by
  induction s generalizing st with
  | nil => simp only [parse_loop, Except.ok.injEq] at h; subst h; exact hinv
  | cons c s ih =>
    simp only [parse_loop] at h
    cases hstep : parse_step st c with
    | error f => simp [hstep] at h
    | ok st1 =>
      simp only [hstep] at h
      exact ih st1 h (parse_step_no_close st st1 c hstep hinv)

theorem parse_finish_no_close (st : ParseState) (hinv : no_close st) :
    [')'] ∉ parse_finish st := by
  obtain ⟨hb, hs, hd⟩ := hinv
  intro hmem
  rcases List.mem_append.mp hmem with h | h
  · rcases flush_digit_mem _ _ _ h with h1 | ⟨h1, _⟩
    · exact hb _ h1 rfl
    · exact (digits_ne_paren _ hd).2 h1.symm
  · exact hs _ h rfl

theorem count_open_zero (p : List (List Char)) (h : ∀ t ∈ p, t ≠ ['(']) :
    p.count ['('] = 0 :=
  List.count_eq_zero.mpr (fun hmem => h _ hmem rfl)

theorem operator_char (c : Char) (h : in_alphabet c = true) (h1 : is_ignore c = false)
    (h2 : isdigit c = false) (h3 : (c == ')') = false) (h4 : (c == '(') = false) :
    10 ≤ priority c := by
  simp only [in_alphabet, h1, h2, h3, h4, Bool.or_false, Bool.false_or, Bool.or_eq_true] at h
  rcases h with h | h
  · have := priority_additive c h; omega
  · have := priority_multiplicative c h; omega

theorem parse_step_no_open (st st' : ParseState) (c : Char)
    (h : parse_step st c = .ok st') (hc : in_alphabet c = true) (hinv : no_open st) :
    no_open st' ∧
      st'.stack.count ['('] + [c].count ')' = st.stack.count ['('] + [c].count '(' := by
  obtain ⟨hb, hd⟩ := hinv
  have hflush : ∀ t ∈ flush_digit st.buffer st.digit, t ≠ ['('] := by
    intro t ht
    rcases flush_digit_mem _ _ _ ht with h1 | ⟨h1, _⟩
    · exact hb t h1
    · rw [h1]; exact (digits_ne_paren _ hd).1
  unfold parse_step at h
  split at h
  · rename_i hig
    simp only [Except.ok.injEq] at h; subst h
    have h1 : c ≠ ')' := by rintro rfl; revert hig; decide
    have h2 : c ≠ '(' := by rintro rfl; revert hig; decide
    exact ⟨⟨hb, hd⟩, by simp [List.count_singleton, h1, h2]⟩
  split at h
  · rename_i hdig
    simp only [Except.ok.injEq] at h; subst h
    have h1 : c ≠ ')' := by rintro rfl; revert hdig; decide
    have h2 : c ≠ '(' := by rintro rfl; revert hdig; decide
    exact ⟨⟨hb, by simp [hd, hdig]⟩, by simp [List.count_singleton, h1, h2]⟩
  rename_i hig hdig
  simp only at h
  split at h
  · rename_i hclose
    have hc' : c = ')' := by simpa using hclose
    split at h
    · rename_i b' s' hcg
      simp only [Except.ok.injEq] at h; subst h
      obtain ⟨p, h1, h2, h3⟩ := close_group_ok _ _ _ _ hcg
      refine ⟨⟨?_, rfl⟩, ?_⟩
      · intro t ht
        rw [h2] at ht
        rcases List.mem_append.mp ht with ht | ht
        · exact hflush t ht
        · exact h3 t ht
      · subst hc'
        simp only [h1, List.count_append, count_open_zero p h3, List.count_cons_self]
        simp [List.count_singleton]
    · simp at h
  rename_i hnc
  split at h
  · rename_i hopen
    have hc' : c = '(' := by simpa using hopen
    simp only [Except.ok.injEq] at h; subst h
    subst hc'
    exact ⟨⟨hflush, rfl⟩, by simp [List.count_singleton]⟩
  · rename_i hno
    simp only [Except.ok.injEq] at h; subst h
    obtain ⟨p, rest, h1, h2, h3, _⟩ := push_operator_shape c (flush_digit st.buffer st.digit)
      st.stack
    have hprio : 10 ≤ priority c :=
      operator_char c hc (by simpa using hig) (by simpa using hdig) (by simpa using hnc)
        (by simpa using hno)
    have hp : ∀ t ∈ p, t ≠ ['('] := by
      intro t ht heq
      have := h3 t ht
      subst heq
      have h1 : priority (front ['(']) = 1 := by decide
      omega
    have h1c : c ≠ ')' := by simpa using hnc
    have h2c : c ≠ '(' := by simpa using hno
    rw [h2]
    refine ⟨⟨?_, rfl⟩, ?_⟩
    · intro t ht
      rcases List.mem_append.mp ht with ht | ht
      · exact hflush t ht
      · exact hp t ht
    · have hne : ([c] == ['(']) = false := by simp [h2c]
      simp only [h1, List.count_append, count_open_zero p hp, List.count_cons, hne]
      simp [List.count_singleton, h1c, h2c]

theorem parse_loop_no_open (s : List Char) (st st' : ParseState)
    (h : parse_loop s st = .ok st') (hs : ∀ c ∈ s, in_alphabet c = true) (hinv : no_open st) :
    no_open st' ∧ st'.stack.count ['('] + s.count ')' = st.stack.count ['('] + s.count '(' := by
  induction s generalizing st with
  | nil => simp only [parse_loop, Except.ok.injEq] at h; subst h; exact ⟨hinv, rfl⟩
  | cons c s ih =>
    simp only [parse_loop] at h
    cases hstep : parse_step st c with
    | error f => simp [hstep] at h
    | ok st1 =>
      simp only [hstep] at h
      obtain ⟨hinv1, hcount1⟩ :=
        parse_step_no_open st st1 c hstep (hs c (by simp)) hinv
      obtain ⟨hinv2, hcount2⟩ := ih st1 h (fun x hx => hs x (by simp [hx])) hinv1
      refine ⟨hinv2, ?_⟩
      have e1 : (c :: s).count ')' = [c].count ')' + s.count ')' := by
        rw [← List.count_append]; rfl
      have e2 : (c :: s).count '(' = [c].count '(' + s.count '(' := by
        rw [← List.count_append]; rfl
      omega

theorem parse_finish_no_open (st : ParseState) (hinv : no_open st)
    (hcount : st.stack.count ['('] = 0) : ['('] ∉ parse_finish st := by
  obtain ⟨hb, hd⟩ := hinv
  intro hmem
  rcases List.mem_append.mp hmem with h | h
  · rcases flush_digit_mem _ _ _ h with h1 | ⟨h1, _⟩
    · exact hb _ h1 rfl
    · exact (digits_ne_paren _ hd).1 h1.symm
  · exact (List.count_eq_zero.mp hcount) h

/-! ## An unclosed parenthesis, and buffers of three tokens -/

theorem below_open (e : Expr) (stack : List (List Char)) : below e.guard (['('] :: stack) := by
  intro top htop
  simp only [List.head?_cons, Option.mem_def, Option.some.injEq] at htop
  subst htop
  have h1 := e.guard_ge
  have h2 : priority (front ['(']) = 1 := by decide
  omega

/-- An opening parenthesis in front of a well-formed expression stays on the stack to the end
of the input and is appended after the post-order traversal. -/
theorem parse_unclosed (e : Expr) (hwf : e.wf = true) :
    rpn.empty.parse ('(' :: e.text) = .ok { buffer := e.postorder ++ [['(']] } := by
  have hopen : parse_step { buffer := [], stack := [], digit := [] } '(' =
      .ok { buffer := [], stack := [['(']], digit := [] } := by decide
  have h := parse_loop_text e hwf [] [['(']] (below_open e [])
  simp only [rpn.parse, rpn.empty, parse_loop, hopen, h, parse_finish]
  rw [flush_digit_eq, ← e.split_postorder hwf]
  simp

theorem calc_unclosed (e : Expr) (v : Int) (hwf : e.wf = true) (hv : e.value = some v)
    (hrem : e.rem_defined = true) : rpn.calc ('(' :: e.text) = .ok v := by
  have hskip : ∀ stack : List Int, eval_step stack ['('] = .ok stack := fun _ => rfl
  have hp := parse_unclosed e hwf
  simp only [rpn.calc, rpn.of_string, hp, rpn.eval]
  rw [eval_loop_append _ _ _ _ (eval_loop_postorder e hwf hrem v hv [])]
  simp [eval_loop, hskip]

theorem eval_triple (x y : Nat) (op : Char) (v : Int) (hx : (x : Int) ≤ INT_MAX)
    (hy : (y : Int) ≤ INT_MAX) (hkind : is_additive op = true ∨ is_multiplicative op = true)
    (hv : infix_op op x y = some v) :
    rpn.eval { buffer := [decimal x, decimal y, [op]] } = .ok v := by
  obtain ⟨hmax, hmin⟩ := int_bounds
  have h1 := eval_step_numeric _ _ (stoi_decimal x hx)
  have h2 := eval_step_numeric _ _ (stoi_decimal y hy)
  have hrem : (op == '%' && (x : Int) == INT_MIN && (y : Int) == -1) = false := by
    have : ¬ ((x : Int) = INT_MIN) := by omega
    simp [this]
  simp [rpn.eval, eval_loop, h1, h2, eval_step_operator op hkind,
    apply_operator_infix op x y v [] hv hrem]

/-! ## Tokens the evaluator skips, and evaluation as a call on the object -/

theorem eval_step_skip (v : List Char) (h1 : is_numeric v = false) (h2 : is_operator v = false)
    (stack : List Int) : eval_step stack v = .ok stack := by
  simp [eval_step, h1, h2]

theorem eval_loop_recognised (buffer : List (List Char)) (stack : List Int) :
    eval_loop (recognised buffer) stack = eval_loop buffer stack := by
  induction buffer generalizing stack with
  | nil => rfl
  | cons v buffer ih =>
    by_cases h : (is_numeric v || is_operator v) = true
    · have hkeep : recognised (v :: buffer) = v :: recognised buffer := by
        simp only [recognised, List.filter_cons, h, if_true]
      rw [hkeep]
      simp only [eval_loop]
      cases eval_step stack v with
      | error f => rfl
      | ok stack1 => exact ih stack1
    · have h' := eq_false_of_ne_true h
      have hdrop : recognised (v :: buffer) = recognised buffer := by
        simp only [recognised, List.filter_cons, h', Bool.false_eq_true, if_false]
      simp only [Bool.or_eq_false_iff] at h'
      rw [hdrop, ih]
      simp [eval_loop, eval_step_skip v h'.1 h'.2]

theorem eval_recognised (self : rpn) :
    rpn.eval { buffer := recognised self.buffer } = self.eval := by
  simp [rpn.eval, eval_loop_recognised]

theorem eval_iterate_spec (n i : Nat) (st : EvalState)
    (h : i + n = st.object.buffer.length) :
    eval_iterate n i st = (eval_loop (st.object.buffer.drop i) st.stack, st.object) := by
  induction n generalizing i st with
  | zero =>
    have hi : st.object.buffer.length ≤ i := by omega
    simp [eval_iterate, List.drop_eq_nil_of_le hi, eval_loop]
  | succ n ih =>
    have hi : i < st.object.buffer.length := by omega
    have hdrop : st.object.buffer.drop i =
        st.object.buffer.get ⟨i, hi⟩ :: st.object.buffer.drop (i + 1) := by
      simp
    have hget : st.object.buffer.get? i = some (st.object.buffer.get ⟨i, hi⟩) :=
      List.get?_eq_get hi
    rw [hdrop]
    simp only [eval_iterate, eval_at, hget, eval_loop]
    cases hstep : eval_step st.stack (st.object.buffer.get ⟨i, hi⟩) with
    | error f => rfl
    | ok stack1 =>
      simp only []
      rw [ih (i + 1) { object := st.object, stack := stack1 } (by simp; omega)]

theorem eval_call_spec (self : rpn) : self.eval_call = (self.eval, self) := by
  have h := eval_iterate_spec self.buffer.length 0 { object := self, stack := [] } (by simp)
  simp only [List.drop_zero] at h
  unfold rpn.eval_call rpn.eval
  rw [h]
  cases eval_loop self.buffer [] with
  | error f => rfl
  | ok stack =>
    cases stack with
    | nil => rfl
    | cons top rest => rfl

/-! ## Digit-only tokens in the evaluator -/

theorem digits_not_operator (ds : List Char) (hds : ds.all isdigit = true) :
    is_operator ds = false := by
  cases h : is_operator ds with
  | false => rfl
  | true =>
    simp only [is_operator, Bool.or_eq_true, beq_iff_eq] at h
    rcases h with (((rfl | rfl) | rfl) | rfl) | rfl <;> revert hds <;> decide

theorem eval_step_digits (ds : List Char) (hne : ds ≠ []) (hds : ds.all isdigit = true)
    (stack : List Int) :
    eval_step stack ds =
      if (decimal_value ds : Int) ≤ INT_MAX then .ok ((decimal_value ds : Int) :: stack)
      else .ok stack := by
  have hs := stoi_digits ds hne hds
  split
  · rename_i hle
    rw [if_pos hle] at hs
    exact eval_step_numeric ds _ hs stack
  · rename_i hgt
    rw [if_neg hgt] at hs
    exact eval_step_skip ds (by simp [is_numeric, hs]) (digits_not_operator ds hds) stack

/-! ## The branches of the converter as functions of the stack -/

theorem push_operator_takeWhile (c : Char) (buffer stack : List (List Char)) :
    push_operator c buffer stack =
      (buffer ++ stack.takeWhile (fun t => decide (priority c ≤ priority (front t))),
       [c] :: stack.dropWhile (fun t => decide (priority c ≤ priority (front t)))) := by
  induction stack generalizing buffer with
  | nil => simp [push_operator]
  | cons top stack ih =>
    by_cases hp : priority c ≤ priority (front top)
    · rw [push_operator, if_pos hp, ih]
      simp [List.takeWhile, List.dropWhile, hp]
    · rw [push_operator, if_neg hp]
      simp [List.takeWhile, List.dropWhile, hp]

/-- A stack that contains `"("` splits at its topmost `"("`. -/
theorem split_at_open (stack : List (List Char)) (h : ['('] ∈ stack) :
    ∃ above below, stack = above ++ ['('] :: below ∧ ['('] ∉ above := by
  induction stack with
  | nil => simp at h
  | cons top stack ih =>
    by_cases ht : top = ['(']
    · exact ⟨[], stack, by simp [ht], by simp⟩
    · have hmem : ['('] ∈ stack := by
        rcases List.mem_cons.mp h with h | h
        · exact absurd h.symm ht
        · exact h
      obtain ⟨above, below, h1, h2⟩ := ih hmem
      refine ⟨top :: above, below, by simp [h1], ?_⟩
      intro hm
      rcases List.mem_cons.mp hm with hm | hm
      · exact ht hm.symm
      · exact h2 hm

theorem parse_step_close (st : ParseState) (above below : List (List Char))
    (hs : st.stack = above ++ ['('] :: below) (ha : ['('] ∉ above) :
    parse_step st ')' =
      .ok { buffer := flush_digit st.buffer st.digit ++ above, stack := below, digit := [] } := by
  have hc := close_group_pops above below (flush_digit st.buffer st.digit)
    (fun t ht heq => ha (heq ▸ ht))
  have hi : is_ignore ')' = false := by decide
  have hd : isdigit ')' = false := by decide
  simp only [parse_step, hi, hd, Bool.false_eq_true, if_false, beq_self_eq_true, if_true, hs, hc]

theorem parse_step_other (st : ParseState) (c : Char) (h1 : is_ignore c = false)
    (h2 : isdigit c = false) (h3 : c ≠ '(') (h4 : c ≠ ')') :
    parse_step st c =
      .ok { buffer := (push_operator c (flush_digit st.buffer st.digit) st.stack).1,
            stack := (push_operator c (flush_digit st.buffer st.digit) st.stack).2,
            digit := [] } := by
  simp [parse_step, h1, h2, h3, h4]

/-! ## No underflow of the operator stack -/

theorem count_cons_split (x c : Char) (l : List Char) :
    (c :: l).count x = [c].count x + l.count x := by
  rw [← List.count_append]; rfl

theorem parse_step_ok_of_ne_close (st : ParseState) (c : Char) (h : c ≠ ')') :
    ∃ st1, parse_step st c = .ok st1 := by
  unfold parse_step
  split
  · exact ⟨_, rfl⟩
  split
  · exact ⟨_, rfl⟩
  simp only [beq_iff_eq, h, if_false]
  split <;> exact ⟨_, rfl⟩

theorem parse_step_ok_of_open (st : ParseState) (c : Char) (h : c = ')' → ['('] ∈ st.stack) :
    ∃ st1, parse_step st c = .ok st1 := by
  by_cases hc : c = ')'
  · obtain ⟨above, below, h1, h2⟩ := split_at_open st.stack (h hc)
    subst hc
    exact ⟨_, parse_step_close st above below h1 h2⟩
  · exact parse_step_ok_of_ne_close st c hc

/-- On input over the valid alphabet in which no prefix closes more parentheses than the stack
and the prefix have opened, the loop of `parse` completes. -/
theorem parse_loop_completes (s : List Char) (st : ParseState)
    (halpha : ∀ c ∈ s, in_alphabet c = true) (hinv : no_open st)
    (hb : ∀ n ≤ s.length,
      (s.take n).count ')' ≤ st.stack.count ['('] + (s.take n).count '(') :
    ∃ st', parse_loop s st = .ok st' := by
  induction s generalizing st with
  | nil => exact ⟨st, rfl⟩
  | cons c s ih =>
    have hstep : ∃ st1, parse_step st c = .ok st1 := by
      apply parse_step_ok_of_open
      intro hc
      subst hc
      have h1 := hb 1 (by simp)
      simp only [List.take_succ_cons, List.take_zero, List.count_singleton] at h1
      have hpos : 0 < st.stack.count ['('] := by
        simp only [beq_self_eq_true, if_true, show (')' == '(') = false from rfl,
          Bool.false_eq_true, if_false] at h1
        omega
      exact List.count_pos_iff.mp hpos
    obtain ⟨st1, hst1⟩ := hstep
    obtain ⟨hinv1, hcount⟩ := parse_step_no_open st st1 c hst1 (halpha c (by simp)) hinv
    have hb1 : ∀ n ≤ s.length,
        (s.take n).count ')' ≤ st1.stack.count ['('] + (s.take n).count '(' := by
      intro n hn
      have h2 := hb (n + 1) (by simp; omega)
      rw [List.take_succ_cons, count_cons_split ')', count_cons_split '('] at h2
      omega
    obtain ⟨st', hst'⟩ := ih st1 (fun x hx => halpha x (by simp [hx])) hinv1 hb1
    exact ⟨st', by simp only [parse_loop, hst1, hst']⟩

theorem nesting_ok_take (s : List Char) (h : nesting_ok s) (n : Nat) :
    nesting_ok (s.take n) := by
  intro m hm
  rw [List.length_take] at hm
  rw [List.take_take]
  exact h _ (by omega)

theorem parse_completes (s : List Char) (halpha : ∀ c ∈ s, in_alphabet c = true)
    (hbal : nesting_ok s) :
    ∃ st, parse_loop s { buffer := [], stack := [], digit := [] } = .ok st ∧ no_open st ∧
      st.stack.count ['('] + s.count ')' = s.count '(' := by
  have hinit : no_open { buffer := [], stack := [], digit := [] } := ⟨by simp, rfl⟩
  obtain ⟨st, hst⟩ := parse_loop_completes s _ halpha hinit
    (fun n hn => by simpa using hbal n hn)
  obtain ⟨h1, h2⟩ := parse_loop_no_open s _ st hst halpha hinit
  exact ⟨st, hst, h1, by simpa using h2⟩

/-! ## The converter only appends to the buffer -/

theorem flush_digit_behind (B buffer : List (List Char)) (digit : List Char) :
    flush_digit (B ++ buffer) digit = B ++ flush_digit buffer digit := by
  unfold flush_digit
  split <;> simp

theorem close_group_behind (B buffer stack : List (List Char)) :
    close_group (B ++ buffer) stack =
      match close_group buffer stack with
      | .ok (buffer', stack') => .ok (B ++ buffer', stack')
      | .error f => .error f := by
  induction stack generalizing buffer with
  | nil => rfl
  | cons top stack ih =>
    by_cases h : (top != ['(']) = true
    · rw [close_group, close_group, if_pos h, if_pos h, List.append_assoc, ih]
    · rw [close_group, close_group, if_neg h, if_neg h]

theorem push_operator_behind (c : Char) (B buffer stack : List (List Char)) :
    push_operator c (B ++ buffer) stack =
      (B ++ (push_operator c buffer stack).1, (push_operator c buffer stack).2) := by
  rw [push_operator_takeWhile, push_operator_takeWhile, List.append_assoc]

theorem parse_step_behind (B : List (List Char)) (st : ParseState) (c : Char) :
    parse_step (st.behind B) c =
      match parse_step st c with
      | .ok st' => .ok (st'.behind B)
      | .error f => .error f := by
  unfold parse_step
  simp only [ParseState.behind, flush_digit_behind, close_group_behind, push_operator_behind]
  split
  · rfl
  split
  · rfl
  split
  · cases close_group (flush_digit st.buffer st.digit) st.stack with
    | error f => rfl
    | ok r => rfl
  split <;> rfl

theorem parse_loop_behind (B : List (List Char)) (s : List Char) (st : ParseState) :
    parse_loop s (st.behind B) =
      match parse_loop s st with
      | .ok st' => .ok (st'.behind B)
      | .error f => .error f := by
  induction s generalizing st with
  | nil => rfl
  | cons c s ih =>
    simp only [parse_loop, parse_step_behind]
    cases parse_step st c with
    | error f => rfl
    | ok st1 => exact ih st1

theorem parse_behind (B : List (List Char)) (s : List Char) :
    rpn.parse { buffer := B } s =
      match rpn.empty.parse s with
      | .ok r => .ok { buffer := B ++ r.buffer }
      | .error f => .error f := by
  have h := parse_loop_behind B s { buffer := [], stack := [], digit := [] }
  simp only [ParseState.behind, List.append_nil] at h
  simp only [rpn.parse, rpn.empty, h]
  cases parse_loop s { buffer := [], stack := [], digit := [] } with
  | error f => rfl
  | ok st =>
    simp only [parse_finish, ParseState.behind, flush_digit_behind, List.append_assoc]

/-! ## Conservation of operands and operators -/

/-- Shape of an iteration on a character that is neither white space nor a digit: a run `p` of
the stack goes to the buffer after the pending digits; `)` drops the `"("` below `p`, any other
character is pushed. -/
theorem parse_step_shape (st st' : ParseState) (c : Char) (h1 : is_ignore c = false)
    (h2 : isdigit c = false) (h : parse_step st c = .ok st') :
    ∃ p mid rest fresh, st.stack = p ++ mid ++ rest ∧
      st' = { buffer := flush_digit st.buffer st.digit ++ p, stack := fresh ++ rest,
              digit := [] } ∧
      ((c = ')' ∧ mid = [['(']] ∧ fresh = []) ∨ (c ≠ ')' ∧ mid = [] ∧ fresh = [[c]])) := by
  by_cases hc : c = ')'
  · subst hc
    simp only [parse_step, h1, h2, Bool.false_eq_true, if_false, beq_self_eq_true,
      if_true] at h
    split at h
    · rename_i b' s' hcg
      obtain ⟨p, e1, e2, _⟩ := close_group_ok _ _ _ _ hcg
      simp only [Except.ok.injEq] at h
      exact ⟨p, [['(']], s', [], by simp [e1], by rw [← h, e2]; simp, Or.inl ⟨rfl, rfl, rfl⟩⟩
    · simp at h
  · by_cases ho : c = '('
    · subst ho
      simp only [parse_step, h1, h2, Bool.false_eq_true, if_false,
        show ('(' == ')') = false from rfl, beq_self_eq_true, if_true, Except.ok.injEq] at h
      exact ⟨[], [], st.stack, [['(']], by simp, by rw [← h]; simp, Or.inr ⟨hc, rfl, rfl⟩⟩
    · rw [parse_step_other st c h1 h2 ho hc] at h
      obtain ⟨p, rest, e1, e2, _, _⟩ :=
        push_operator_shape c (flush_digit st.buffer st.digit) st.stack
      simp only [e2, Except.ok.injEq] at h
      exact ⟨p, [], rest, [[c]], by simp [e1], by rw [← h]; rfl, Or.inr ⟨hc, rfl, rfl⟩⟩

theorem filter_flush_digit (buffer : List (List Char)) (digit : List Char)
    (hd : digit.all isdigit = true) :
    (flush_digit buffer digit).filter is_digit_string =
      buffer.filter is_digit_string ++ (if digit.isEmpty then [] else [digit]) := by
  unfold flush_digit
  cases digit with
  | nil => simp
  | cons c cs =>
    have : is_digit_string (c :: cs) = true := by simp [is_digit_string, hd]
    simp [List.filter_append, List.filter_cons, this]

theorem filter_no_digit_string (l : List (List Char))
    (h : ∀ t ∈ l, is_digit_string t = false) : l.filter is_digit_string = [] := by
  rw [List.filter_eq_nil_iff]
  intro t ht
  simp [h t ht]

theorem not_digit_string_singleton (c : Char) (h : isdigit c = false) :
    is_digit_string [c] = false := by
  simp [is_digit_string, h]

/-- The digit strings of the final buffer are those of the buffer at any point of the scan
followed by the digit runs of what remains of the input, the pending digits starting the
first run. -/
theorem parse_loop_digit_runs (s : List Char) (st st' : ParseState)
    (h : parse_loop s st = .ok st') (hd : st.digit.all isdigit = true)
    (hs : ∀ t ∈ st.stack, is_digit_string t = false) :
    (parse_finish st').filter is_digit_string =
      st.buffer.filter is_digit_string ++ digit_runs_from st.digit (strip_whitespace s) := by
  induction s generalizing st with
  | nil =>
    simp only [parse_loop, Except.ok.injEq] at h
    subst h
    simp only [parse_finish, List.filter_append, filter_flush_digit _ _ hd,
      filter_no_digit_string _ hs, List.append_nil, strip_whitespace, List.filter_nil,
      digit_runs_from]
  | cons c s ih =>
    simp only [parse_loop] at h
    cases hstep : parse_step st c with
    | error f => simp [hstep] at h
    | ok st1 =>
      simp only [hstep] at h
      by_cases h1 : is_ignore c = true
      · have hdrop : strip_whitespace (c :: s) = strip_whitespace s := by
          have h1' := h1
          simp only [is_ignore] at h1'
          simp only [strip_whitespace, List.filter_cons, h1', Bool.not_true,
            Bool.false_eq_true, if_false]
        have e : st1 = st := by
          simp only [parse_step, h1, if_true, Except.ok.injEq] at hstep
          exact hstep.symm
        subst e
        rw [hdrop]
        exact ih st1 h hd hs
      · have h1f := eq_false_of_ne_true h1
        have hkeep : strip_whitespace (c :: s) = c :: strip_whitespace s := by
          have h1' := h1f
          simp only [is_ignore] at h1'
          simp only [strip_whitespace, List.filter_cons, h1', Bool.not_false, if_true]
        rw [hkeep]
        by_cases h2 : isdigit c = true
        · have e : st1 = { st with digit := st.digit ++ [c] } := by
            simp only [parse_step, h1f, h2, Bool.false_eq_true, if_false, if_true,
              Except.ok.injEq] at hstep
            exact hstep.symm
          subst e
          have := ih _ h (by simp [hd, h2]) hs
          simpa [digit_runs_from, h2] using this
        · have h2f := eq_false_of_ne_true h2
          obtain ⟨p, mid, rest, fresh, e1, e2, e3⟩ := parse_step_shape st st1 c h1f h2f hstep
          subst e2
          have hp : ∀ t ∈ p, is_digit_string t = false := fun t ht =>
            hs t (by rw [e1]; simp [ht])
          have hrest : ∀ t ∈ fresh ++ rest, is_digit_string t = false := by
            intro t ht
            rcases List.mem_append.mp ht with ht | ht
            · rcases e3 with ⟨_, _, e⟩ | ⟨_, _, e⟩
              · rw [e] at ht; simp at ht
              · rw [e] at ht
                simp only [List.mem_singleton] at ht
                rw [ht]
                exact not_digit_string_singleton c h2f
            · exact hs t (by rw [e1]; simp [ht])
          have := ih _ h rfl hrest
          rw [this]
          simp only [List.filter_append, filter_flush_digit _ _ hd, filter_no_digit_string _ hp,
            List.append_nil, digit_runs_from, h2f, Bool.false_eq_true, if_false,
            List.append_assoc]

theorem operator_char_facts (c : Char) (h : is_operator_char c = true) :
    is_ignore c = false ∧ isdigit c = false ∧ c ≠ ')' ∧ c ≠ '(' := by
  simp only [is_operator_char, is_additive, is_multiplicative, Bool.or_eq_true,
    beq_iff_eq] at h
  rcases h with (rfl | rfl) | ((rfl | rfl) | rfl) <;> decide

theorem is_operator_singleton (c : Char) : is_operator [c] = is_operator_char c := by
  simp [is_operator, is_operator_char, is_additive, is_multiplicative, Bool.or_assoc]

theorem countP_flush_digit (buffer : List (List Char)) (digit : List Char)
    (hd : digit.all isdigit = true) :
    (flush_digit buffer digit).countP is_operator = buffer.countP is_operator := by
  unfold flush_digit
  split
  · simp [List.countP_append, List.countP_cons, digits_not_operator digit hd]
  · rfl

/-- Operator tokens are conserved: those of the final buffer are those already in the buffer,
those on the stack and one for every operator character still to be read. -/
theorem parse_loop_operator_count (s : List Char) (st st' : ParseState)
    (h : parse_loop s st = .ok st') (hd : st.digit.all isdigit = true) :
    (parse_finish st').countP is_operator =
      st.buffer.countP is_operator + st.stack.countP is_operator +
        s.countP is_operator_char := by
  induction s generalizing st with
  | nil =>
    simp only [parse_loop, Except.ok.injEq] at h
    subst h
    simp [parse_finish, List.countP_append, countP_flush_digit _ _ hd]
  | cons c s ih =>
    simp only [parse_loop] at h
    cases hstep : parse_step st c with
    | error f => simp [hstep] at h
    | ok st1 =>
      simp only [hstep] at h
      by_cases h1 : is_ignore c = true
      · have e : st1 = st := by
          simp only [parse_step, h1, if_true, Except.ok.injEq] at hstep
          exact hstep.symm
        have hno : is_operator_char c = false := by
          cases hop : is_operator_char c with
          | false => rfl
          | true => rw [(operator_char_facts c hop).1] at h1; simp at h1
        subst e
        rw [ih st1 h hd, List.countP_cons, hno]
        simp
      · have h1f := eq_false_of_ne_true h1
        by_cases h2 : isdigit c = true
        · have e : st1 = { st with digit := st.digit ++ [c] } := by
            simp only [parse_step, h1f, h2, Bool.false_eq_true, if_false, if_true,
              Except.ok.injEq] at hstep
            exact hstep.symm
          have hno : is_operator_char c = false := by
            cases hop : is_operator_char c with
            | false => rfl
            | true => rw [(operator_char_facts c hop).2.1] at h2; simp at h2
          subst e
          rw [ih _ h (by simp [hd, h2]), List.countP_cons, hno]
          simp
        · have h2f := eq_false_of_ne_true h2
          obtain ⟨p, mid, rest, fresh, e1, e2, e3⟩ := parse_step_shape st st1 c h1f h2f hstep
          subst e2
          rw [ih _ h rfl, e1, List.countP_cons]
          simp only [List.countP_append, countP_flush_digit _ _ hd]
          rcases e3 with ⟨hc, hm, hf⟩ | ⟨_, hm, hf⟩
          · subst hc
            rw [hm, hf]
            simp [List.countP_cons, show is_operator ['('] = false from rfl,
              show is_operator_char ')' = false from rfl]
            omega
          · rw [hm, hf]
            simp only [List.countP_cons, List.countP_nil, is_operator_singleton]
            omega

theorem count_open_flush_digit (buffer : List (List Char)) (digit : List Char)
    (hd : digit.all isdigit = true) :
    (flush_digit buffer digit).count ['('] = buffer.count ['('] := by
  unfold flush_digit
  split
  · have hne : digit ≠ ['('] := (digits_ne_paren digit hd).1
    simp [List.count_append, List.count_cons, hne]
  · rfl

theorem count_open_singleton (c : Char) :
    [[c]].count ['('] = [c].count '(' := by
  by_cases h : c = '('
  · subst h; rfl
  · simp [List.count_cons, h]

/-- The tokens `"("` are accounted for: every `(` read is pushed once, every `)` read drops
one from the stack, and what is left on the stack at the end of the input is moved to the
buffer. -/
theorem parse_loop_open_count (s : List Char) (st st' : ParseState)
    (h : parse_loop s st = .ok st') (hd : st.digit.all isdigit = true) :
    (parse_finish st').count ['('] + s.count ')' =
      st.buffer.count ['('] + st.stack.count ['('] + s.count '(' := by
  induction s generalizing st with
  | nil =>
    simp only [parse_loop, Except.ok.injEq] at h
    subst h
    simp [parse_finish, List.count_append, count_open_flush_digit _ _ hd]
  | cons c s ih =>
    simp only [parse_loop] at h
    cases hstep : parse_step st c with
    | error f => simp [hstep] at h
    | ok st1 =>
      simp only [hstep] at h
      by_cases h1 : is_ignore c = true
      · have e : st1 = st := by
          simp only [parse_step, h1, if_true, Except.ok.injEq] at hstep
          exact hstep.symm
        have hno : c ≠ '(' ∧ c ≠ ')' := by
          constructor <;> (rintro rfl; revert h1; decide)
        subst e
        have := ih st1 h hd
        simp only [List.count_cons, beq_iff_eq, hno.1, hno.2, if_false]
        omega
      · have h1f := eq_false_of_ne_true h1
        by_cases h2 : isdigit c = true
        · have e : st1 = { st with digit := st.digit ++ [c] } := by
            simp only [parse_step, h1f, h2, Bool.false_eq_true, if_false, if_true,
              Except.ok.injEq] at hstep
            exact hstep.symm
          have hno : c ≠ '(' ∧ c ≠ ')' := by
            constructor <;> (rintro rfl; revert h2; decide)
          subst e
          have := ih _ h (by simp [hd, h2])
          simp only [List.count_cons, beq_iff_eq, hno.1, hno.2, if_false]
          simpa using this
        · have h2f := eq_false_of_ne_true h2
          obtain ⟨p, mid, rest, fresh, e1, e2, e3⟩ := parse_step_shape st st1 c h1f h2f hstep
          subst e2
          have := ih _ h rfl
          simp only [List.count_append, count_open_flush_digit _ _ hd] at this
          rw [e1]
          simp only [List.count_append]
          rcases e3 with ⟨hc, hm, hf⟩ | ⟨hc, hm, hf⟩
          · subst hc hm hf
            simp [List.count_cons] at this ⊢
            omega
          · subst hm hf
            rw [count_open_singleton] at this
            have hc2 : ¬ (')' = c) := fun e => hc e.symm
            by_cases ho : c = '('
            · subst ho
              simp [List.count_cons] at this ⊢
              omega
            · have ho2 : ¬ ('(' = c) := fun e => ho e.symm
              simp [List.count_cons, hc, ho, hc2, ho2] at this ⊢
              omega

/-! ## The claims of the specification -/

/-- C1 (as stated, refuted): `(0-2147483647-1)%(0-1)` is a well-formed expression whose
literals and intermediate values (`INT_MIN`, `-1` and the remainder `0`) all fit in `int` and
whose divisor is not zero, with standard value `0`; `calc` does not return `0` on it, because
the evaluator computes `INT_MIN % -1`, which is undefined in C++. -/
theorem calc_min_rem_undefined :
    min_rem_expr.wf = true ∧
    min_rem_expr.text = "(0-2147483647-1)%(0-1)".toList ∧
    min_rem_expr.value = some 0 ∧
    rpn.calc "(0-2147483647-1)%(0-1)".toList = .error .undefined ∧
    rpn.calc min_rem_expr.text ≠ .ok 0 := by
  decide

/-- C1 (amended): for every well-formed infix expression whose literals and intermediate
values all fit in a 32-bit signed `int`, in which no divisor is zero and no remainder of
`INT_MIN` by `-1` is taken, `calc` on the text of the expression returns its value under
standard infix evaluation (`* / %` above `+ -`, equal precedence grouped to the left). -/
theorem calc_matches_infix_evaluation (e : Expr) (v : Int) (hwf : e.wf = true)
    (hv : e.value = some v) (hrem : e.rem_defined = true) :
    rpn.calc e.text = .ok v :=
  calc_value e v hwf hv hrem

/-- C1 witness: `(2+3)*4-10/5` evaluates to `18`. -/
theorem calc_matches_infix_evaluation_witness :
    sample_expr.text = "(2+3)*4-10/5".toList ∧ rpn.calc sample_expr.text = .ok 18 :=
  ⟨by decide,
   calc_matches_infix_evaluation sample_expr 18 (by decide) (by decide) (by decide)⟩

/-- C2: for every well-formed infix expression, `parse` called on an object with an empty
buffer leaves in the buffer exactly the post-order traversal of the syntax tree: the tokens of
the left operand, the tokens of the right operand, then the operator as a one-character
string; a literal yields its digit string. -/
theorem parse_yields_postorder (e : Expr) (hwf : e.wf = true) :
    rpn.empty.parse e.text = .ok { buffer := e.postorder } := by
  simpa [rpn.empty] using parse_text e hwf rpn.empty

/-- C2 witness: `(2+3)*4-10/5` is converted to `2 3 + 4 * 10 5 / -`. -/
theorem parse_yields_postorder_witness :
    sample_expr.wf = true ∧
    rpn.empty.parse "(2+3)*4-10/5".toList =
      .ok { buffer := ["2".toList, "3".toList, "+".toList, "4".toList, "*".toList,
                       "10".toList, "5".toList, "/".toList, "-".toList] } :=
  ⟨by decide, parse_yields_postorder sample_expr (by decide)⟩

/-- C3: white space is insignificant.  For every object and every input string `s`, `parse`
produces the same outcome (the same buffer, or the same failure) on `s` and on `s` with every
space, tab, newline and carriage return deleted, and so does `calc`; digits separated only by
white space form one literal (`1 2` gives the single token `12`), and `calc("2 + 3")` equals
`calc("2+3")`. -/
theorem whitespace_insensitive (self : rpn) (s : List Char) :
    self.parse s = self.parse (strip_whitespace s) ∧
    rpn.calc s = rpn.calc (strip_whitespace s) ∧
    rpn.empty.parse "1 2".toList = .ok { buffer := ["12".toList] } ∧
    rpn.calc "2 + 3".toList = rpn.calc "2+3".toList := by
  refine ⟨(parse_strip self s).symm, ?_, by decide, by decide⟩
  simp [rpn.calc, rpn.of_string, parse_strip]

/-- C4 (as stated, refuted): `a = 0`, `b = c = 2147483647` all fit in a 32-bit signed `int`,
but `calc("0-2147483647-2147483647")` does not return `(a-b)-c = -4294967294`: the second
subtraction overflows `int`, which is undefined in C++. -/
theorem subtraction_chain_overflow :
    decimal 0 ++ '-' :: (decimal 2147483647 ++ '-' :: decimal 2147483647) =
      "0-2147483647-2147483647".toList ∧
    rpn.calc "0-2147483647-2147483647".toList = .error .undefined ∧
    rpn.calc "0-2147483647-2147483647".toList ≠ .ok ((0 : Int) - 2147483647 - 2147483647) := by
  decide

/-- C4 (amended): subtraction is left-associative.  For all non-negative integers `a`, `b`, `c`
that fit in a 32-bit signed `int` and whose difference `(a-b)-c` fits as well, `calc` on the
text `a-b-c` (decimal literals) returns `(a-b)-c`, which differs from `a-(b-c)` as soon as
`c` is not zero. -/
theorem subtraction_left_associative (a b c : Nat) (ha : (a : Int) ≤ INT_MAX)
    (hb : (b : Int) ≤ INT_MAX) (hc : (c : Int) ≤ INT_MAX) (hr : INT_MIN ≤ (a : Int) - b - c) :
    rpn.calc (decimal a ++ '-' :: (decimal b ++ '-' :: decimal c)) = .ok ((a : Int) - b - c) ∧
    (c ≠ 0 →
      rpn.calc (decimal a ++ '-' :: (decimal b ++ '-' :: decimal c)) ≠
        .ok ((a : Int) - (b - c))) := by
  have h := sub_chain_calc a b c ha hb hc hr
  refine ⟨h, fun hc0 => ?_⟩
  rw [h]
  intro heq
  have h2 : (a : Int) - b - c = (a : Int) - (b - c) := by simpa using heq
  omega

/-- C4 witness: `calc("10-3-2")` is `5`, not `10-(3-2) = 9`. -/
theorem subtraction_left_associative_witness :
    rpn.calc "10-3-2".toList = .ok 5 ∧ rpn.calc "10-3-2".toList ≠ .ok 9 :=
  ⟨(subtraction_left_associative 10 3 2 (by decide) (by decide) (by decide) (by decide)).1,
   (subtraction_left_associative 10 3 2 (by decide) (by decide) (by decide) (by decide)).2
     (by decide)⟩

/-- C5 (as stated, refuted): with `a = 1`, `b = 0`, `c = 99999999999` the results `b*c = 0` and
`a+b*c = 1` fit in a 32-bit signed `int`, yet `calc("1+0*99999999999")` does not return `1`:
`parse` gives `1 0 99999999999 * +`, `eval` skips the token `99999999999` because `std::stoi`
throws on it, `*` pops `0` and `1`, and `+` pops from a value stack of one element, which is
undefined.  Likewise `(a+b)*c = 0` fits for `a = b = 0` and `calc("(0+0)*99999999999")` is
undefined. -/
theorem precedence_literal_out_of_range :
    decimal 1 ++ '+' :: (decimal 0 ++ '*' :: decimal 99999999999) = "1+0*99999999999".toList ∧
    (0 : Int) * 99999999999 ≤ INT_MAX ∧ (1 : Int) + 0 * 99999999999 ≤ INT_MAX ∧
    rpn.empty.parse "1+0*99999999999".toList =
      .ok { buffer := ["1".toList, "0".toList, "99999999999".toList, "*".toList,
                       "+".toList] } ∧
    is_numeric "99999999999".toList = false ∧
    rpn.calc "1+0*99999999999".toList = .error .undefined ∧
    rpn.calc "1+0*99999999999".toList ≠ .ok ((1 : Int) + 0 * 99999999999) ∧
    '(' :: (decimal 0 ++ '+' :: (decimal 0 ++ ')' :: '*' :: decimal 99999999999)) =
      "(0+0)*99999999999".toList ∧
    (0 : Int) + 0 ≤ INT_MAX ∧ ((0 : Int) + 0) * 99999999999 ≤ INT_MAX ∧
    rpn.calc "(0+0)*99999999999".toList = .error .undefined ∧
    rpn.calc "(0+0)*99999999999".toList ≠ .ok (((0 : Int) + 0) * 99999999999) := by
  decide

/-- C5 (amended): precedence and parentheses.  For all non-negative integers `a`, `b`, `c` that
fit in a 32-bit signed `int`: when `b*c` and `a+b*c` fit, `calc("a+b*c")` returns `a+(b*c)`;
when `a+b` and `(a+b)*c` fit, `calc("(a+b)*c")` returns `(a+b)*c`; and `calc("2+3")` is `5`. -/
theorem precedence_and_parentheses (a b c : Nat) (ha : (a : Int) ≤ INT_MAX)
    (hb : (b : Int) ≤ INT_MAX) (hc : (c : Int) ≤ INT_MAX) :
    ((a : Int) + b * c ≤ INT_MAX →
      rpn.calc (decimal a ++ '+' :: (decimal b ++ '*' :: decimal c)) =
        .ok ((a : Int) + b * c)) ∧
    ((a : Int) + b ≤ INT_MAX → ((a : Int) + b) * c ≤ INT_MAX →
      rpn.calc ('(' :: (decimal a ++ '+' :: (decimal b ++ ')' :: '*' :: decimal c))) =
        .ok (((a : Int) + b) * c)) ∧
    rpn.calc "2+3".toList = .ok 5 :=
  ⟨sum_of_product_calc a b c ha hb hc, product_of_sum_calc a b c ha hb hc, by decide⟩

/-- C5 witness: `calc("2+3*4")` is `14` and `calc("(2+3)*4")` is `20`. -/
theorem precedence_and_parentheses_witness :
    rpn.calc "2+3*4".toList = .ok 14 ∧ rpn.calc "(2+3)*4".toList = .ok 20 :=
  ⟨(precedence_and_parentheses 2 3 4 (by decide) (by decide) (by decide)).1 (by decide),
   (precedence_and_parentheses 2 3 4 (by decide) (by decide) (by decide)).2.1
     (by decide) (by decide)⟩

/-- C6: integer division truncates toward zero and the remainder pairs with it.  With `b`
pushed before `a` on the value stack, both 32-bit ints, `a` not zero and the pair not
`INT_MIN`, `-1`: the `/` step replaces them by a quotient `q` whose magnitude is the floor of
`|b| / |a|` and whose sign is that of `b * a`, and the `%` step by `r` with `b = a * q + r`.
For non-negative literals `n` and `d` (that fit in `int`, `d` not zero) `calc("n/d")` is the
floor of `n / d` and `calc("n%d")` is `n mod d`; and `calc("(0-7)/2")` is `-3`. -/
theorem division_truncates_toward_zero (b a : Int) (stack : List Int)
    (hb : INT_MIN ≤ b ∧ b ≤ INT_MAX) (ha : INT_MIN ≤ a ∧ a ≤ INT_MAX) (h0 : a ≠ 0)
    (hex : ¬(b = INT_MIN ∧ a = -1))
    (n d : Nat) (hn : (n : Int) ≤ INT_MAX) (hd : (d : Int) ≤ INT_MAX) (hd0 : d ≠ 0) :
    (∃ q r : Int,
      eval_step (a :: b :: stack) ['/'] = .ok (q :: stack) ∧
      eval_step (a :: b :: stack) ['%'] = .ok (r :: stack) ∧
      q.natAbs = b.natAbs / a.natAbs ∧ (0 ≤ b * a → 0 ≤ q) ∧ (b * a ≤ 0 → q ≤ 0) ∧
      b = a * q + r) ∧
    rpn.calc (decimal n ++ '/' :: decimal d) = .ok ((n / d : Nat) : Int) ∧
    rpn.calc (decimal n ++ '%' :: decimal d) = .ok ((n % d : Nat) : Int) ∧
    rpn.calc "(0-7)/2".toList = .ok (-3) := by
  refine ⟨⟨Int.tdiv b a, Int.tmod b a, eval_step_div b a stack hb h0 hex,
    eval_step_mod b a stack ha h0 hex, Int.natAbs_tdiv b a, (tdiv_sign b a).1,
    (tdiv_sign b a).2, (Int.tdiv_add_tmod b a).symm⟩,
    quotient_calc n d hn hd hd0, remainder_calc n d hn hd hd0, by decide⟩

/-- C6 witness: on the stack `-7`, `2` the `/` step pushes `-3` and the `%` step pushes `-1`;
`calc("7/2")` is `3` and `calc("7%3")` is `1`. -/
theorem division_truncates_toward_zero_witness :
    eval_step [2, -7] ['/'] = .ok [-3] ∧ eval_step [2, -7] ['%'] = .ok [-1] ∧
    rpn.calc "7/2".toList = .ok 3 ∧ rpn.calc "7%3".toList = .ok 1 :=
  ⟨by decide, by decide,
   (division_truncates_toward_zero (-7) 2 [] (by decide) (by decide) (by decide) (by decide)
     7 2 (by decide) (by decide) (by decide)).2.1,
   (division_truncates_toward_zero (-7) 2 [] (by decide) (by decide) (by decide) (by decide)
     7 3 (by decide) (by decide) (by decide)).2.2.1⟩

/-- C7 (as stated, refuted): for the non-negative literal `2147483648`, `calc("2147483648/0")`
does not throw the division-by-zero error: `parse` gives `2147483648 0 /`, `eval` skips the
token `2147483648` because `std::stoi` throws on it, and `/` pops `0` and then pops from an
empty value stack, which is undefined.  The same holds for `calc("99999999999%0")`. -/
theorem division_by_zero_large_literal :
    decimal 2147483648 ++ ['/', '0'] = "2147483648/0".toList ∧
    rpn.empty.parse "2147483648/0".toList =
      .ok { buffer := ["2147483648".toList, "0".toList, "/".toList] } ∧
    is_numeric "2147483648".toList = false ∧
    eval_loop ["2147483648".toList, "0".toList] [] = .ok [0] ∧
    rpn.calc "2147483648/0".toList = .error .undefined ∧
    rpn.calc "2147483648/0".toList ≠ .error (.range_error "ERROR: division by zero.") ∧
    decimal 99999999999 ++ ['%', '0'] = "99999999999%0".toList ∧
    rpn.calc "99999999999%0".toList = .error .undefined ∧
    rpn.calc "99999999999%0".toList ≠
      .error (.range_error "ERROR: calculated the remainder with zero") := by
  decide

/-- C7 (amended): division by zero aborts the evaluation.  If the tokens `before` leave the
value stack with `0` on top of at least one more value, then `eval` on `before`, a `/` or `%`
token and any tokens `after` throws the division-by-zero `std::range_error` and returns no
integer.  In particular, for every non-negative literal `n` that fits in `int`, `calc("n/0")`
and `calc("n%0")` throw it. -/
theorem division_by_zero_aborts (before after : List (List Char)) (b : Int) (rest : List Int)
    (h : eval_loop before [] = .ok (0 :: b :: rest)) (n : Nat) (hn : (n : Int) ≤ INT_MAX) :
    rpn.eval { buffer := before ++ ['/'] :: after } =
      .error (.range_error "ERROR: division by zero.") ∧
    rpn.eval { buffer := before ++ ['%'] :: after } =
      .error (.range_error "ERROR: calculated the remainder with zero") ∧
    rpn.calc (decimal n ++ ['/', '0']) = .error (.range_error "ERROR: division by zero.") ∧
    rpn.calc (decimal n ++ ['%', '0']) =
      .error (.range_error "ERROR: calculated the remainder with zero") := by
  have hdiv : ∀ (x : Int) (s : List Int), eval_step (0 :: x :: s) ['/'] =
      .error (.range_error "ERROR: division by zero.") := fun _ _ => rfl
  have hmod : ∀ (x : Int) (s : List Int), eval_step (0 :: x :: s) ['%'] =
      .error (.range_error "ERROR: calculated the remainder with zero") := fun _ _ => rfl
  have hzero : stoi ['0'] = some 0 := by decide
  have hn1 := eval_step_numeric _ _ (stoi_decimal n hn)
  have hn2 := eval_step_numeric _ _ hzero
  have hwf : ∀ op, is_multiplicative op = true →
      (Expr.bin op (.lit (decimal n)) (.lit ['0'])).wf = true := fun op hop =>
    wf_bin_multiplicative _ _ _ hop (lit_decimal_wf n) (by decide)
      (by simp [Expr.level]) (by simp [Expr.level])
  refine ⟨?_, ?_, ?_, ?_⟩
  · simp [rpn.eval, eval_loop_append _ _ _ _ h, eval_loop, hdiv]
  · simp [rpn.eval, eval_loop_append _ _ _ _ h, eval_loop, hmod]
  · have ht := calc_text _ (hwf '/' rfl)
    simp only [Expr.text, Expr.postorder] at ht
    rw [ht]
    simp [rpn.eval, eval_loop, hn1, hn2, hdiv]
  · have ht := calc_text _ (hwf '%' rfl)
    simp only [Expr.text, Expr.postorder] at ht
    rw [ht]
    simp [rpn.eval, eval_loop, hn1, hn2, hmod]

/-- C7 witness: `calc("5/0")` and `calc("5%0")` throw, and so does the evaluation of
`5 0 / 1`, whatever follows the division. -/
theorem division_by_zero_aborts_witness :
    rpn.calc "5/0".toList = .error (.range_error "ERROR: division by zero.") ∧
    rpn.calc "5%0".toList =
      .error (.range_error "ERROR: calculated the remainder with zero") ∧
    rpn.eval { buffer := ["5".toList, "0".toList, "/".toList, "1".toList] } =
      .error (.range_error "ERROR: division by zero.") :=
  ⟨(division_by_zero_aborts ["5".toList, "0".toList] ["1".toList] 5 [] (by decide)
      5 (by decide)).2.2.1,
   (division_by_zero_aborts ["5".toList, "0".toList] ["1".toList] 5 [] (by decide)
      5 (by decide)).2.2.2,
   (division_by_zero_aborts ["5".toList, "0".toList] ["1".toList] 5 [] (by decide)
      5 (by decide)).1⟩

/-- C8 (as stated, refuted): `calc("(1+2")` does not fail; the unclosed `"("` is appended to the
buffer at the end of the input and skipped by the evaluator, and `3` is returned. -/
theorem unclosed_parenthesis_returns :
    rpn.empty.parse "(1+2".toList =
      .ok { buffer := ["1".toList, "2".toList, "+".toList, "(".toList] } ∧
    rpn.calc "(1+2".toList = .ok 3 := by
  decide

/-- C8 (amended): an expression with an unclosed opening parenthesis is not rejected.
`calc("(1+2")` returns `3`; more generally, for every well-formed expression `e` whose standard
value `v` is defined (values fit in `int`, no zero divisor, no remainder of `INT_MIN` by `-1`),
`calc` on `(` followed by the text of `e` returns `v`, with no error. -/
theorem unclosed_parenthesis_is_ignored (e : Expr) (v : Int) (hwf : e.wf = true)
    (hv : e.value = some v) (hrem : e.rem_defined = true) :
    rpn.calc ('(' :: e.text) = .ok v ∧ rpn.calc "(1+2".toList = .ok 3 :=
  ⟨calc_unclosed e v hwf hv hrem, by decide⟩

/-- C8 witness: `calc("((2+3)*4-10/5")` returns `18`. -/
theorem unclosed_parenthesis_is_ignored_witness :
    rpn.calc "((2+3)*4-10/5".toList = .ok 18 :=
  (unclosed_parenthesis_is_ignored sample_expr 18 (by decide) (by decide) (by decide)).1

/-- C9 (as stated, refuted): `parse("(1+2")` completes and its buffer contains the token
`"("`. -/
theorem open_parenthesis_reaches_output :
    rpn.empty.parse "(1+2".toList =
      .ok { buffer := ["1".toList, "2".toList, "+".toList, "(".toList] } ∧
    "(".toList ∈ ["1".toList, "2".toList, "+".toList, "(".toList] := by
  decide

/-- C9 (amended): for every input string on which `parse` completes, starting from an empty
buffer, the buffer does not contain the token `")"`; and it does not contain the token `"("`
either exactly when the input has as many `(` as `)`: the number of `"("` tokens in the buffer
is the number of `(` in the input that no `)` closes. -/
theorem parentheses_in_output (s : List Char) (r : rpn) (h : rpn.empty.parse s = .ok r) :
    [')'] ∉ r.buffer ∧
    r.buffer.count ['('] + s.count ')' = s.count '(' ∧
    (['('] ∉ r.buffer ↔ s.count '(' = s.count ')') := by
  unfold rpn.parse at h
  cases hloop : parse_loop s { buffer := rpn.empty.buffer, stack := [], digit := [] } with
  | error f => simp [hloop] at h
  | ok st =>
    simp only [hloop, Except.ok.injEq] at h
    subst h
    show [')'] ∉ parse_finish st ∧
      (parse_finish st).count ['('] + s.count ')' = s.count '(' ∧
      (['('] ∉ parse_finish st ↔ s.count '(' = s.count ')')
    have hcount := parse_loop_open_count s _ st hloop rfl
    simp only [rpn.empty, List.count_nil, Nat.zero_add] at hcount
    refine ⟨?_, hcount, ?_⟩
    · exact parse_finish_no_close st
        (parse_loop_no_close s _ st hloop ⟨by simp [rpn.empty], by simp, rfl⟩)
    · rw [← List.count_eq_zero]
      constructor
      · intro h0
        rw [h0] at hcount
        omega
      · intro hbal
        omega

/-- C9 witness: `parse("2^(3)")` completes with the buffer `2 3 ^`, which contains neither
`")"` nor `"("`, the input having one `(` and one `)`. -/
theorem parentheses_in_output_witness :
    rpn.empty.parse "2^(3)".toList =
      .ok { buffer := ["2".toList, "3".toList, "^".toList] } ∧
    [')'] ∉ (rpn.mk ["2".toList, "3".toList, "^".toList]).buffer ∧
    ['('] ∉ (rpn.mk ["2".toList, "3".toList, "^".toList]).buffer :=
  ⟨by decide,
   (parentheses_in_output "2^(3)".toList { buffer := ["2".toList, "3".toList, "^".toList] }
      (by decide)).1,
   (parentheses_in_output "2^(3)".toList { buffer := ["2".toList, "3".toList, "^".toList] }
      (by decide)).2.2.mpr (by decide)⟩

/-- C10: operand order in the evaluator.  For non-negative `x` and `y` that fit in `int`, `eval`
on the buffer `[decimal x, decimal y, op]` returns `x op y`, the second-popped value `x` being
the left operand: `x + y` and `x * y` when they fit, `x - y`, and for `y` not zero the
truncated quotient `x / y` and the remainder `x % y`.  The difference is not `y - x` unless
`x = y`; the buffer `10 3 -` evaluates to `7`. -/
theorem operand_order (x y : Nat) (hx : (x : Int) ≤ INT_MAX) (hy : (y : Int) ≤ INT_MAX) :
    ((x : Int) + y ≤ INT_MAX →
      rpn.eval { buffer := [decimal x, decimal y, ['+']] } = .ok ((x : Int) + y)) ∧
    rpn.eval { buffer := [decimal x, decimal y, ['-']] } = .ok ((x : Int) - y) ∧
    (x ≠ y → rpn.eval { buffer := [decimal x, decimal y, ['-']] } ≠ .ok ((y : Int) - x)) ∧
    ((x : Int) * y ≤ INT_MAX →
      rpn.eval { buffer := [decimal x, decimal y, ['*']] } = .ok ((x : Int) * y)) ∧
    (y ≠ 0 →
      rpn.eval { buffer := [decimal x, decimal y, ['/']] } = .ok ((x / y : Nat) : Int)) ∧
    (y ≠ 0 →
      rpn.eval { buffer := [decimal x, decimal y, ['%']] } = .ok ((x % y : Nat) : Int)) ∧
    rpn.eval { buffer := ["10".toList, "3".toList, "-".toList] } = .ok 7 := by
  obtain ⟨hmax, hmin⟩ := int_bounds
  have hsub : rpn.eval { buffer := [decimal x, decimal y, ['-']] } = .ok ((x : Int) - y) :=
    eval_triple x y '-' _ hx hy (Or.inl rfl)
      (by rw [infix_op_sub, fits_of_bounds _ (by omega) (by omega)])
  refine ⟨fun h => ?_, hsub, fun hne => ?_, fun h => ?_, fun h0 => ?_, fun h0 => ?_, by decide⟩
  · exact eval_triple x y '+' _ hx hy (Or.inl rfl)
      (by rw [infix_op_add, fits_of_bounds _ (by omega) (by omega)])
  · rw [hsub]
    intro heq
    have : (x : Int) - y = (y : Int) - x := by simpa using heq
    omega
  · have hpos : (0 : Int) ≤ (x : Int) * y := by positivity
    exact eval_triple x y '*' _ hx hy (Or.inr rfl)
      (by rw [infix_op_mul, fits_of_bounds _ (by omega) (by omega)])
  · have hle : x / y ≤ x := Nat.div_le_self x y
    have hpos : (0 : Int) ≤ ((x / y : Nat) : Int) := Int.ofNat_nonneg _
    exact eval_triple x y '/' _ hx hy (Or.inr rfl)
      (by rw [infix_op_div _ _ (by omega), ← Int.ofNat_tdiv,
        fits_of_bounds _ (by omega) (by omega)])
  · have hle : x % y ≤ x := Nat.mod_le x y
    have hpos : (0 : Int) ≤ ((x % y : Nat) : Int) := Int.ofNat_nonneg _
    exact eval_triple x y '%' _ hx hy (Or.inr rfl)
      (by rw [infix_op_mod _ _ (by omega), ← Int.ofNat_tmod,
        fits_of_bounds _ (by omega) (by omega)])

/-- C10 witness: `7 2 -` is `5`, not `-5`; `7 2 /` is `3` and `7 2 %` is `1`. -/
theorem operand_order_witness :
    rpn.eval { buffer := ["7".toList, "2".toList, "-".toList] } = .ok 5 ∧
    rpn.eval { buffer := ["7".toList, "2".toList, "-".toList] } ≠ .ok (-5) ∧
    rpn.eval { buffer := ["7".toList, "2".toList, "/".toList] } = .ok 3 ∧
    rpn.eval { buffer := ["7".toList, "2".toList, "%".toList] } = .ok 1 :=
  ⟨(operand_order 7 2 (by decide) (by decide)).2.1,
   (operand_order 7 2 (by decide) (by decide)).2.2.1 (by decide),
   (operand_order 7 2 (by decide) (by decide)).2.2.2.2.1 (by decide),
   (operand_order 7 2 (by decide) (by decide)).2.2.2.2.2.1 (by decide)⟩

/-- C11: unrecognised tokens are silently skipped by the evaluator.  For every token buffer
`t`, `eval` has the same outcome (the same integer or the same failure) on `t` and on `t`
with every token removed that is neither numeric (`is_numeric`) nor one of the five operator
strings (`is_operator`); the buffer `1 2 + (` evaluates to `3`. -/
theorem unrecognised_tokens_skipped (t : List (List Char)) :
    rpn.eval { buffer := t } =
      rpn.eval { buffer := t.filter (fun v => is_numeric v || is_operator v) } ∧
    rpn.eval { buffer := ["1".toList, "2".toList, "+".toList, "(".toList] } = .ok 3 :=
  ⟨(eval_recognised { buffer := t }).symm, by decide⟩

/-- C12: evaluation is read-only and repeatable.  A call of `eval` returns the object with its
token buffer unchanged, so a second call in succession on the same object has the same
outcome (the same integer or the same failure) as the first. -/
theorem eval_read_only (self : rpn) :
    (self.eval_call).2.buffer = self.buffer ∧
    ((self.eval_call).2.eval_call).1 = (self.eval_call).1 ∧
    (self.eval_call).1 = self.eval := by
  have h := eval_call_spec self
  rw [h]
  refine ⟨rfl, ?_, rfl⟩
  show (self.eval_call).1 = self.eval
  rw [h]

/-- C13 (as stated, refuted): `parse("(1)(2)")` produces the buffer `1 2`, whose evaluation
leaves the two values `2`, `1` on the value stack; `eval` does not fail but returns the top
value `2`. -/
theorem two_values_left_returns_top :
    rpn.empty.parse "(1)(2)".toList = .ok { buffer := ["1".toList, "2".toList] } ∧
    eval_loop ["1".toList, "2".toList] [] = .ok [2, 1] ∧
    rpn.eval { buffer := ["1".toList, "2".toList] } = .ok 2 := by
  decide

/-- C13 (amended): after all tokens are processed, a value stack holding more than one element
is not reported as an error: whenever the evaluation of a buffer leaves one or more values on
the value stack, `eval` returns the top one, whatever lies below it.  Only an empty value
stack makes the call go wrong: the final `stack.back()` is then undefined. -/
theorem eval_returns_top (buffer : List (List Char)) (stack : List Int)
    (h : eval_loop buffer [] = .ok stack) :
    (∀ top rest, stack = top :: rest → rpn.eval { buffer := buffer } = .ok top) ∧
    (stack = [] → rpn.eval { buffer := buffer } = .error .undefined) := by
  constructor
  · intro top rest hs
    subst hs
    simp [rpn.eval, h]
  · intro hs
    subst hs
    simp [rpn.eval, h]

/-- C13 witness: the buffer `1 2 3` leaves three values and evaluates to `3`. -/
theorem eval_returns_top_witness :
    rpn.eval { buffer := ["1".toList, "2".toList, "3".toList] } = .ok 3 :=
  (eval_returns_top ["1".toList, "2".toList, "3".toList] [3, 2, 1] (by decide)).1 3 [2, 1] rfl

/-- C14: the operator step of the converter.  On a character `c` that is no digit, no white
space and no parenthesis, with operator stack `S`, `parse` flushes the pending digits, moves
to the buffer, in pop order, exactly the longest run of tokens from the top of `S` whose
priority (that of their first character) is at least `priority(c)`, and pushes the
one-character string `c` on what remains of `S`.  The priority is `100` for `* / %`, `10` for
`+ -` and `1` for every other character, `(` included. -/
theorem operator_step (st : ParseState) (c : Char) (h1 : is_ignore c = false)
    (h2 : isdigit c = false) (h3 : c ≠ '(') (h4 : c ≠ ')') :
    parse_step st c =
      .ok { buffer := flush_digit st.buffer st.digit ++
              st.stack.takeWhile (fun t => decide (priority c ≤ priority (front t))),
            stack := [c] ::
              st.stack.dropWhile (fun t => decide (priority c ≤ priority (front t))),
            digit := [] } ∧
    (∀ x : Char, priority x =
      if x = '*' ∨ x = '/' ∨ x = '%' then 100 else if x = '+' ∨ x = '-' then 10 else 1) ∧
    priority '(' = 1 := by
  refine ⟨?_, ?_, by decide⟩
  · rw [parse_step_other st c h1 h2 h3 h4, push_operator_takeWhile]
  · intro x
    simp only [priority, Bool.or_eq_true, beq_iff_eq, or_assoc]

/-- C14 witness: on `-` with stack `* + (` (top first) and pending digits `7`, the tokens `7`,
`*`, `+` go to the buffer and `-` is pushed on `(`. -/
theorem operator_step_witness :
    parse_step { buffer := [], stack := ["*".toList, "+".toList, "(".toList],
                 digit := "7".toList } '-' =
      .ok { buffer := ["7".toList, "*".toList, "+".toList],
            stack := ["-".toList, "(".toList], digit := [] } :=
  (operator_step { buffer := [], stack := ["*".toList, "+".toList, "(".toList],
                   digit := "7".toList } '-' (by decide) (by decide) (by decide)
    (by decide)).1

/-- C15: the closing-parenthesis step of the converter.  On `)` with an operator stack `S`
that contains at least one `"("`, `S` is `above`, the topmost `"("`, `below`; `parse` flushes
the pending digits, appends to the buffer, in pop order, exactly the tokens `above`, removes
that `"("` without emitting it and leaves `below` as the stack; the `)` itself is neither
pushed nor emitted. -/
theorem closing_parenthesis_step (st : ParseState) (h : ['('] ∈ st.stack) :
    ∃ above below, st.stack = above ++ ['('] :: below ∧ ['('] ∉ above ∧
      parse_step st ')' =
        .ok { buffer := flush_digit st.buffer st.digit ++ above, stack := below,
              digit := [] } := by
  obtain ⟨above, below, h1, h2⟩ := split_at_open st.stack h
  exact ⟨above, below, h1, h2, parse_step_close st above below h1 h2⟩

/-- C15 witness: on `)` with stack `* + ( - (` (top first) and pending digits `7`, the tokens
`7`, `*`, `+` go to the buffer and the stack becomes `- (`. -/
theorem closing_parenthesis_step_witness :
    ∃ above below,
      ["*".toList, "+".toList, "(".toList, "-".toList, "(".toList] =
        above ++ ['('] :: below ∧ ['('] ∉ above ∧
      parse_step { buffer := [], digit := "7".toList,
                   stack := ["*".toList, "+".toList, "(".toList, "-".toList, "(".toList] }
          ')' =
        .ok { buffer := flush_digit [] "7".toList ++ above, stack := below, digit := [] } :=
  closing_parenthesis_step
    { buffer := [], digit := "7".toList,
      stack := ["*".toList, "+".toList, "(".toList, "-".toList, "(".toList] } (by decide)

/-- C16: the end-of-input step of the converter.  When the scan of the input finishes with
pending digit string `d` and operator stack `S`, `parse` appends `d` to the buffer if `d` is
not empty and then every element of `S` from top to bottom, a `"("` left by an unclosed
parenthesis included; `parse("(1+2")` yields the buffer `1 2 + (`. -/
theorem end_of_input_step (self : rpn) (src : List Char) (st : ParseState)
    (h : parse_loop src { buffer := self.buffer, stack := [], digit := [] } = .ok st) :
    self.parse src =
      .ok { buffer := (if st.digit = [] then st.buffer else st.buffer ++ [st.digit]) ++
              st.stack } ∧
    rpn.empty.parse "(1+2".toList =
      .ok { buffer := ["1".toList, "2".toList, "+".toList, "(".toList] } := by
  refine ⟨?_, by decide⟩
  simp only [rpn.parse, h, parse_finish, flush_digit]
  cases st.digit <;> simp

/-- C16 witness: the scan of `(1+2` ends with buffer `1`, pending digits `2` and stack `+ (`. -/
theorem end_of_input_step_witness :
    parse_loop "(1+2".toList { buffer := [], stack := [], digit := [] } =
      .ok { buffer := ["1".toList], stack := ["+".toList, "(".toList], digit := "2".toList } ∧
    rpn.empty.parse "(1+2".toList =
      .ok { buffer := ["1".toList, "2".toList, "+".toList, "(".toList] } :=
  ⟨by decide,
   (end_of_input_step rpn.empty "(1+2".toList
     { buffer := ["1".toList], stack := ["+".toList, "(".toList], digit := "2".toList }
     (by decide)).1⟩

/-- C17: no stack underflow on balanced input over the valid alphabet.  For every input that
consists only of digits, white space, `(`, `)` and the operators `+ - * / %` and in which
every prefix contains at least as many `(` as `)`: `parse` completes; at every position of the
scan the buffer holds no `"("` (no operator character has popped one into the output), and
when the next character is `)` the operator stack contains a `"("`, so `stack.back()` is never
read on an empty stack.  The restriction of the alphabet is necessary: in `(a)` the character
`a`, of priority `1`, pops the `"("` into the buffer and the following `)` underflows. -/
theorem no_underflow_on_balanced_input (s : List Char)
    (halpha : ∀ c ∈ s, in_alphabet c = true) (hbal : nesting_ok s) :
    (∃ r, rpn.empty.parse s = .ok r) ∧
    (∀ n, ∃ st, parse_loop (s.take n) { buffer := [], stack := [], digit := [] } = .ok st ∧
      ['('] ∉ st.buffer ∧ (s.get? n = some ')' → ['('] ∈ st.stack)) ∧
    (in_alphabet 'a' = false ∧ nesting_ok "(a)".toList ∧
      parse_loop "(a".toList { buffer := [], stack := [], digit := [] } =
        .ok { buffer := ["(".toList], stack := ["a".toList], digit := [] } ∧
      rpn.empty.parse "(a)".toList = .error .undefined) := by
  refine ⟨?_, ?_, by decide⟩
  · obtain ⟨st, hst, _, _⟩ := parse_completes s halpha hbal
    exact ⟨{ buffer := parse_finish st }, by simp only [rpn.parse, rpn.empty, hst]⟩
  · intro n
    obtain ⟨st, hst, hinv, hcount⟩ := parse_completes (s.take n)
      (fun c hc => halpha c (List.mem_of_mem_take hc)) (nesting_ok_take s hbal n)
    refine ⟨st, hst, fun hmem => hinv.1 _ hmem rfl, fun hnext => ?_⟩
    have hlt : n < s.length := by
      by_contra hge
      rw [List.get?_eq_none.mpr (by omega)] at hnext
      simp at hnext
    have htake : s.take (n + 1) = s.take n ++ [')'] := by
      rw [List.take_succ]
      simp only [List.get?_eq_getElem?] at hnext
      simp [hnext]
    have h1 := hbal (n + 1) (by omega)
    rw [htake, List.count_append, List.count_append] at h1
    simp only [List.count_singleton, beq_self_eq_true, if_true,
      show (')' == '(') = false from rfl, Bool.false_eq_true, if_false] at h1
    exact List.count_pos_iff.mp (by omega)

/-- C17 witness: `parse("(1+2)*(3-4)")` completes, and before the first `)` (position 4) the
stack contains a `"("`. -/
theorem no_underflow_on_balanced_input_witness :
    (∃ r, rpn.empty.parse "(1+2)*(3-4)".toList = .ok r) ∧
    (∃ st, parse_loop ("(1+2)*(3-4)".toList.take 4)
        { buffer := [], stack := [], digit := [] } = .ok st ∧
      ['('] ∉ st.buffer ∧ ("(1+2)*(3-4)".toList.get? 4 = some ')' → ['('] ∈ st.stack)) :=
  ⟨(no_underflow_on_balanced_input "(1+2)*(3-4)".toList (by decide) (by decide)).1,
   (no_underflow_on_balanced_input "(1+2)*(3-4)".toList (by decide) (by decide)).2.1 4⟩

/-- C18: operands keep their order and tokens are conserved.  For every input string on which
`parse` completes, starting from an empty buffer, the digit-string tokens of the output are,
in the same order, the maximal digit runs of the input with white space removed, and the
number of operator tokens in the output is the number of operator characters `+ - * / %` of
the input.  In particular `parse` completes with that count conserved on every input over the
valid alphabet with balanced parentheses. -/
theorem operands_and_operators_conserved (s : List Char) :
    (∀ r, rpn.empty.parse s = .ok r →
      r.buffer.filter is_digit_string = digit_runs (strip_whitespace s) ∧
      r.buffer.countP is_operator = s.countP is_operator_char) ∧
    ((∀ c ∈ s, in_alphabet c = true) → nesting_ok s → s.count '(' = s.count ')' →
      ∃ r, rpn.empty.parse s = .ok r ∧
        r.buffer.countP is_operator = s.countP is_operator_char) := by
  have hmain : ∀ r, rpn.empty.parse s = .ok r →
      r.buffer.filter is_digit_string = digit_runs (strip_whitespace s) ∧
      r.buffer.countP is_operator = s.countP is_operator_char := by
    intro r h
    unfold rpn.parse at h
    cases hloop : parse_loop s { buffer := rpn.empty.buffer, stack := [], digit := [] } with
    | error f => simp [hloop] at h
    | ok st =>
      simp only [hloop, Except.ok.injEq] at h
      subst h
      constructor
      · have := parse_loop_digit_runs s _ st hloop rfl (by simp)
        simpa [rpn.empty, digit_runs] using this
      · have := parse_loop_operator_count s _ st hloop rfl
        simpa [rpn.empty] using this
  refine ⟨hmain, fun halpha hbal _ => ?_⟩
  obtain ⟨st, hst, _, _⟩ := parse_completes s halpha hbal
  have hr : rpn.empty.parse s = .ok { buffer := parse_finish st } := by
    simp only [rpn.parse, rpn.empty, hst]
  exact ⟨_, hr, (hmain _ hr).2⟩

/-- C18 witness: `parse("(1 2+3)*45-6")` yields `12 3 + 45 * 6 -`, whose digit strings are
`12 3 45 6` and which has three operator tokens. -/
theorem operands_and_operators_conserved_witness :
    rpn.empty.parse "(1 2+3)*45-6".toList =
      .ok { buffer := ["12".toList, "3".toList, "+".toList, "45".toList, "*".toList,
                       "6".toList, "-".toList] } ∧
    digit_runs (strip_whitespace "(1 2+3)*45-6".toList) =
      ["12".toList, "3".toList, "45".toList, "6".toList] ∧
    List.filter is_digit_string
        (rpn.mk ["12".toList, "3".toList, "+".toList, "45".toList, "*".toList,
                 "6".toList, "-".toList]).buffer =
      digit_runs (strip_whitespace "(1 2+3)*45-6".toList) ∧
    List.countP is_operator
        (rpn.mk ["12".toList, "3".toList, "+".toList, "45".toList, "*".toList,
                 "6".toList, "-".toList]).buffer =
      List.countP is_operator_char "(1 2+3)*45-6".toList :=
  ⟨by decide, by decide,
   ((operands_and_operators_conserved "(1 2+3)*45-6".toList).1 _ (by decide)).1,
   ((operands_and_operators_conserved "(1 2+3)*45-6".toList).1 _ (by decide)).2⟩

/-- C19: `parse` appends and never clears.  For every existing buffer `B` of an object and
every input string on which `parse` completes, the buffer after the call is `B` followed by
the tokens that `parse` produces for that input from an empty buffer.  An object constructed
from `1+2` on which `parse("3")` is then called holds `1 2 + 3`, and `eval` returns `3`. -/
theorem parse_appends (B : List (List Char)) (s : List Char) (r : rpn)
    (h : rpn.empty.parse s = .ok r) :
    rpn.parse { buffer := B } s = .ok { buffer := B ++ r.buffer } ∧
    rpn.of_string "1+2".toList = .ok { buffer := ["1".toList, "2".toList, "+".toList] } ∧
    rpn.parse { buffer := ["1".toList, "2".toList, "+".toList] } "3".toList =
      .ok { buffer := ["1".toList, "2".toList, "+".toList, "3".toList] } ∧
    rpn.eval { buffer := ["1".toList, "2".toList, "+".toList, "3".toList] } = .ok 3 := by
  refine ⟨?_, by decide, by decide, by decide⟩
  rw [parse_behind, h]

/-- C19 witness: on the buffer `7 8` the call `parse("(2+3)*4")` leaves `7 8 2 3 + 4 *`. -/
theorem parse_appends_witness :
    rpn.parse { buffer := ["7".toList, "8".toList] } "(2+3)*4".toList =
      .ok { buffer := ["7".toList, "8".toList, "2".toList, "3".toList, "+".toList,
                       "4".toList, "*".toList] } :=
  (parse_appends ["7".toList, "8".toList] "(2+3)*4".toList
    { buffer := ["2".toList, "3".toList, "+".toList, "4".toList, "*".toList] }
    (by decide)).1

/-- C20: out-of-range literals are dropped, not evaluated.  For every non-empty digit-only
token: when its decimal value exceeds `2^31 - 1`, `is_numeric` is false (`std::stoi` throws),
the token is no operator either, and the evaluator skips it without pushing a value; when the
value is at most `2^31 - 1` it is pushed.  So the token is pushed as its integer value if and
only if that value is at most `2^31 - 1`, and the buffer `99999999999 1` evaluates to `1`. -/
theorem out_of_range_literal_dropped (ds : List Char) (hne : ds ≠ [])
    (hds : ds.all isdigit = true) (stack : List Int) :
    ((2 : Int) ^ 31 - 1 < (decimal_value ds : Int) →
      is_numeric ds = false ∧ is_operator ds = false ∧ eval_step stack ds = .ok stack) ∧
    ((decimal_value ds : Int) ≤ (2 : Int) ^ 31 - 1 →
      is_numeric ds = true ∧ eval_step stack ds = .ok ((decimal_value ds : Int) :: stack)) ∧
    (eval_step stack ds = .ok ((decimal_value ds : Int) :: stack) ↔
      (decimal_value ds : Int) ≤ (2 : Int) ^ 31 - 1) ∧
    rpn.eval { buffer := ["99999999999".toList, "1".toList] } = .ok 1 := by
  have hmax : INT_MAX = (2 : Int) ^ 31 - 1 := by decide
  have hs := stoi_digits ds hne hds
  have he := eval_step_digits ds hne hds stack
  rw [hmax] at hs he
  refine ⟨fun hgt => ?_, fun hle => ?_, ⟨fun hpush => ?_, fun hle => ?_⟩, by decide⟩
  · rw [if_neg (by omega)] at hs he
    exact ⟨by simp [is_numeric, hs], digits_not_operator ds hds, he⟩
  · rw [if_pos hle] at hs he
    exact ⟨by simp [is_numeric, hs], he⟩
  · by_contra hgt
    rw [if_neg hgt] at he
    rw [he] at hpush
    have hlen := congrArg List.length (Except.ok.inj hpush)
    simp at hlen
  · rw [if_pos hle] at he
    exact he

/-- C20 witness: the token `2147483647` is pushed, the token `2147483648` is skipped. -/
theorem out_of_range_literal_dropped_witness :
    eval_step [7] "2147483647".toList = .ok [2147483647, 7] ∧
    eval_step [7] "2147483648".toList = .ok [7] :=
  ⟨((out_of_range_literal_dropped "2147483647".toList (by decide) (by decide) [7]).2.1
      (by decide)).2,
   ((out_of_range_literal_dropped "2147483648".toList (by decide) (by decide) [7]).1
      (by decide)).2.2⟩

end ringandkey
